import Mathlib

set_option linter.unusedSectionVars false

/-!
Verification development for the openskill.py rating library.

The Python source is shallowly embedded over an ordered field `α`
(exact arithmetic standing in for IEEE doubles).  The transcendental
scalar primitives of the numeric kernel (`math.sqrt`, `math.exp`, the
normal CDF `phi_major` and its inverse) are collected in a `Kern`
structure, so that theorems can be stated either for the real-number
instance (`rKern`, built from `Real.sqrt`/`Real.exp`) or for any
kernel satisfying the hypotheses a given property actually needs.
Python's runtime type test `isinstance(x, int)` (used by
`_calculate_rankings`) is modelled by the kernel field `isInt`.
-/

namespace OpenSkill

/-- The scalar numeric kernel: `math.sqrt`, `math.exp`,
`phi_major` (standard normal CDF), `phi_major_inverse`, and a model of
Python's `isinstance(x, int)` test. -/
structure Kern (α : Type) where
  sqrt : α → α
  exp : α → α
  phiMajor : α → α
  phiMajorInverse : α → α
  isInt : α → Bool

/-- A player rating: `mu` and `sigma`, as in `PlackettLuceRating`
(the `id`/`name` bookkeeping fields carry no numeric content; object
identity is modelled separately by the heap embedding below). -/
structure Rating (α : Type) where
  mu : α
  sigma : α
deriving DecidableEq, Repr

instance {α : Type} [Zero α] : Inhabited (Rating α) := ⟨⟨0, 0⟩⟩

/-- Model configuration, as in `PlackettLuce.__init__`:
`mu`, `sigma`, `beta`, `kappa`, `gamma`, `tau`, `limit_sigma`. -/
structure Model (α : Type) where
  mu : α
  sigma : α
  beta : α
  kappa : α
  gamma : α → ℕ → α → α → List (Rating α) → ℕ → α
  tau : α
  limitSigma : Bool

variable {α : Type} [LinearOrderedField α]

/-- Default gamma function for Plackett-Luce (`_gamma` in
`models/weng_lin/plackett_luce.py`): `sqrt(sigma_squared) / c`. -/
def defaultGamma (K : Kern α) : α → ℕ → α → α → List (Rating α) → ℕ → α :=
  fun c _k _mu sigmaSquared _team _rank => K.sqrt sigmaSquared / c

/-- The `PlackettLuce` model with all constructor defaults:
mu = 25, sigma = 25/3, beta = 25/6, kappa = 0.0001, tau = 25/300,
limit_sigma = False. -/
def defaultModel (K : Kern α) : Model α :=
  ⟨25, 25 / 3, 25 / 6, 1 / 10000, defaultGamma K, 25 / 300, false⟩

/-- The default model but constructed with `limit_sigma=True`. -/
def defaultModelLS (K : Kern α) : Model α :=
  ⟨25, 25 / 3, 25 / 6, 1 / 10000, defaultGamma K, 25 / 300, true⟩

/-! ### `openskill/models/common.py` -/

/-- Lexicographic comparison used by Python's `sorted` on `(value, index)`
pairs in `_arg_sort`. -/
def pairLe [LinearOrder β] (a b : β × ℕ) : Bool :=
  decide (a.1 < b.1 ∨ (a.1 = b.1 ∧ a.2 ≤ b.2))

/-- The `(value, index)` pairs of a vector in Python-sorted order, i.e.
the intermediate `sorted((v, i) for (i, v) in enumerate(vector))` of
`_arg_sort`. -/
def argSortPairs [LinearOrder β] (v : List β) : List (β × ℕ) :=
  (v.enum.map (fun p => (p.2, p.1))).mergeSort pairLe

/-- `_arg_sort(vector)`: the indices that would sort a vector
(ties broken by original index, as Python tuple comparison does). -/
def argSort [LinearOrder β] (v : List β) : List ℕ :=
  (argSortPairs v).map (fun p => p.2)

/-- The run-scanning loop of `_rank_data`: walks the arg-sorted
`(value, original_index)` pairs, detects maximal runs of equal values
(the `arg_sorted_vector[index] != arg_sorted_vector[index + 1]` test),
and assigns every member of a run starting at sorted position `pos` the
rank `pos + 1` (the source's `index + 1 - duplicate_count + 1`).
Returns `(original_index, rank)` pairs. -/
def rankRuns [DecidableEq β] : List (β × ℕ) → ℕ → List (ℕ × ℕ)
  | [], _ => []
  | (v, i) :: rest, pos =>
    let run := rest.takeWhile (fun p => p.1 = v)
    let rest' := rest.dropWhile (fun p => p.1 = v)
    ((v, i) :: run).map (fun p => (p.2, pos + 1)) ++
      rankRuns rest' (pos + 1 + run.length)
termination_by l _ => l.length
decreasing_by
  simp only [List.length_cons]
  exact Nat.lt_succ_of_le (List.dropWhile_sublist _).length_le

/-- `_rank_data(vector)`: competition ranking ("1224", counted from the
smallest value) with ties sharing the lower rank. -/
def rankData [LinearOrder β] (v : List β) : List ℕ :=
  let pairs := rankRuns (argSortPairs v) 0
  (List.range v.length).map (fun i => (pairs.lookup i).getD 0)

/-! ### `openskill/models/weng_lin/common.py` -/

/-- Row comparison of `_unwind`'s sort: Python's
`zipped_matrix.sort(key=_pick_zeroth_index)` compares rows by their
tenet entry only. -/
def rowLe (a b : α × β × ℕ) : Bool :=
  decide (a.1 ≤ b.1)

/-- The sorted row matrix built inside `_unwind`: rows
`(tenet[i], (objects[i], i))` ordered by tenet entry. -/
def unwindRows (tenet : List α) (objs : List β) : List (α × β × ℕ) :=
  (tenet.zip (objs.zip (List.range objs.length))).mergeSort rowLe

/-- `_unwind(tenet, objects)`: reorder `objects` by ascending tenet
value and also return the original positions in the new order. -/
def unwind (tenet : List α) (objs : List β) : List β × List ℕ :=
  ((unwindRows tenet objs).map (fun r => r.2.1),
   (unwindRows tenet objs).map (fun r => r.2.2))

/-! ### `_calculate_rankings` (identical in both weng_lin model files) -/

/-- The `rank_output` loop of `_calculate_rankings`: carries the running
tie index `s`, emitting `s` for each team score; `s` jumps to the
current index whenever the previous score is strictly smaller. -/
def rankScan (prev : α) (s : ℕ) (i : ℕ) : List α → List ℕ
  | [] => []
  | x :: xs =>
    let s' := if prev < x then i else s
    s' :: rankScan x s' (i + 1) xs

/-- The `team_scores` list of `_calculate_rankings`: the supplied rank
entry when Python sees an `int` there, otherwise the team's index; when
no (truthy) ranks are supplied, just the indices. -/
def teamScores (K : Kern α) (n : ℕ) (ranks : Option (List α)) : List α :=
  match ranks with
  | some rl =>
    if rl.isEmpty then (List.range n).map (fun i : ℕ => (i : α))
    else (List.range n).map (fun i =>
      let r := rl.getD i 0
      if K.isInt r then r else (i : α))
  | none => (List.range n).map (fun i : ℕ => (i : α))

/-- `_calculate_rankings(game, ranks)`: 0-based tie-sharing rank indices
computed from the team scores. -/
def calcRankings (K : Kern α) (n : ℕ) (ranks : Option (List α)) : List ℕ :=
  match teamScores K n ranks with
  | [] => []
  | x :: xs => 0 :: rankScan x 0 1 xs

/-! ### `openskill/models/weng_lin/plackett_luce.py` -/

/-- `PlackettLuceTeamRating`: aggregated team `mu`, summed variance,
the (tau-injected) member ratings, and the team's 0-based rank index. -/
structure TeamRating (α : Type) where
  mu : α
  sigmaSquared : α
  team : List (Rating α)
  rank : ℕ
deriving DecidableEq

/-- `_calculate_team_ratings(game, ranks)`: team-level aggregates —
`mu` the sum of member `mu`s, `sigma_squared` the sum of member
`sigma`-squares, rank indices from `_calculate_rankings`.  (The
source's `reduce` over a nonempty team equals a zero-based sum.) -/
def calcTeamRatings (K : Kern α) (game : List (List (Rating α)))
    (ranks : Option (List α)) : List (TeamRating α) :=
  let rank := calcRankings K game.length ranks
  game.enum.map (fun p =>
    ⟨(p.2.map Rating.mu).sum, (p.2.map (fun r => r.sigma ^ 2)).sum, p.2,
      rank.getD p.1 0⟩)

/-- `PlackettLuce._c`: `sqrt` of the summed team variances plus one
`beta` squared per team. -/
def cFun (K : Kern α) (M : Model α) (trs : List (TeamRating α)) : α :=
  K.sqrt ((trs.map (fun t => t.sigmaSquared + M.beta ^ 2)).sum)

/-- `PlackettLuce._sum_q`: accumulates `exp(mu_i / c)` into a dict keyed
by `q` whenever `rank_i >= rank_q`, and returns `list(sum_q.values())`.
The embedding mirrors the Python `dict` faithfully, including its
*insertion order*: the key list grows in the order keys are first
touched (for the rank-sorted team lists produced by every internal
caller this order is `0, 1, 2, ...`). -/
def sumQList (K : Kern α) (trs : List (TeamRating α)) (c : α) : List α :=
  let res := trs.foldl
    (fun (st : List ℕ × (ℕ → α)) ti =>
      let summed := K.exp (ti.mu / c)
      trs.enum.foldl
        (fun (st' : List ℕ × (ℕ → α)) qp =>
          if qp.2.rank ≤ ti.rank then
            if qp.1 ∈ st'.1 then
              (st'.1, fun q => if q = qp.1 then st'.2 q + summed else st'.2 q)
            else
              (st'.1 ++ [qp.1], fun q => if q = qp.1 then summed else st'.2 q)
          else st') st)
    ([], fun _ => 0)
  res.1.map res.2

/-- `PlackettLuce._a`: for each team, the number of teams sharing its
rank. -/
def aList (trs : List (TeamRating α)) : List ℕ :=
  trs.map (fun ti => (trs.filter (fun tq => ti.rank = tq.rank)).length)

/-- `PlackettLuce._compute(teams, ranks)`: the core update.  For each
team `i` it accumulates `omega` and `delta` over all teams `q` with
`rank_q <= rank_i`, scales them by `sigma_squared / c` resp.
`sigma_squared / c^2` and the gamma value, and then maps every member
`(mu, sigma)` to the updated pair, with the variance-shrink factor
clamped below at `kappa` before the square root. -/
def plCompute (K : Kern α) (M : Model α) (teams : List (List (Rating α)))
    (ranks : Option (List α)) : List (List (Rating α)) :=
  let trs := calcTeamRatings K teams ranks
  let c := cFun K M trs
  let sumQ := sumQList K trs c
  let a := aList trs
  trs.enum.map (fun ip =>
    let i := ip.1
    let ti := ip.2
    let iMuOverCe := K.exp (ti.mu / c)
    let od := trs.enum.foldl
      (fun (od : α × α) qp =>
        let x := iMuOverCe / sumQ.getD qp.1 0
        let aq : α := ((a.getD qp.1 1 : ℕ) : α)
        if qp.2.rank ≤ ti.rank then
          (od.1 + (if qp.1 = i then (1 - x) / aq else -(x / aq)),
           od.2 + x * (1 - x) / aq)
        else od)
      (0, 0)
    let omega := od.1 * (ti.sigmaSquared / c)
    let delta := od.2 * (ti.sigmaSquared / c ^ 2) *
      M.gamma c trs.length ti.mu ti.sigmaSquared ti.team ti.rank
    ti.team.map (fun p =>
      ⟨p.mu + p.sigma ^ 2 / ti.sigmaSquared * omega,
       p.sigma * K.sqrt (max (1 - p.sigma ^ 2 / ti.sigmaSquared * delta)
         M.kappa)⟩))

/-- Python truthiness of an optional list argument: `None` and the
empty list are falsy. -/
def pyTruthy (l : Option (List α)) : Bool :=
  match l with
  | some xs => !xs.isEmpty
  | none => false

/-- The effective tau of a `rate` call: `tau = tau if tau else self.tau`
(so both an absent argument and a zero argument fall back to the model
tau). -/
def tauEff (M : Model α) (tauArg : Option α) : α :=
  match tauArg with
  | some t => if t = 0 then M.tau else t
  | none => M.tau

/-- The tau-injection loop of `rate`: every player's sigma becomes
`sqrt(sigma * sigma + tau_squared)`. -/
def tauInject (K : Kern α) (tauSquared : α) (teams : List (List (Rating α))) :
    List (List (Rating α)) :=
  teams.map (fun team => team.map (fun p =>
    ⟨p.mu, K.sqrt (p.sigma * p.sigma + tauSquared)⟩))

/-- The rank vector after `rate`'s score conversion:
`if not ranks and scores: ranks = [-s for s in scores]`. -/
def effRanks (ranks scores : Option (List α)) : Option (List α) :=
  if pyTruthy ranks then ranks
  else if pyTruthy scores then some ((scores.getD []).map (fun s => -s))
  else ranks

/-- The state of `PlackettLuce.rate` at the `_compute` call site:
the (tau-injected, rank-sorted) team list, the rank list passed to
`_compute` (`None` when the rank vector is falsy), and the tenet
remembered for un-permuting. -/
def plRatePre (K : Kern α) (M : Model α) (teams : List (List (Rating α)))
    (ranks scores : Option (List α)) (tauArg : Option α) :
    List (List (Rating α)) × Option (List α) × Option (List ℕ) :=
  let t := tauEff M tauArg
  let teams1 := tauInject K (t * t) teams
  let ranks1 := effRanks ranks scores
  if pyTruthy ranks1 then
    let rl := ranks1.getD []
    let u := unwind rl teams1
    (u.1, some (rl.mergeSort (fun a b => decide (a ≤ b))), some u.2)
  else (teams1, none, none)

/-- `PlackettLuce.rate(teams, ranks, scores, tau, limit_sigma)` on
rating values: tau injection, score conversion, rank-stable sort,
`_compute`, un-permute, and the `limit_sigma` clamp (which the source
applies only when the *per-call* `limit_sigma` argument is truthy, and
which compares against the deep-copied pre-tau sigma). -/
def plRate (K : Kern α) (M : Model α) (teams : List (List (Rating α)))
    (ranks scores : Option (List α)) (tauArg : Option α)
    (lsArg : Option Bool) : List (List (Rating α)) :=
  let pre := plRatePre K M teams ranks scores tauArg
  let processed :=
    match pre.2.2 with
    | some ten =>
      (unwind (ten.map (fun i : ℕ => (i : α))) (plCompute K M pre.1 pre.2.1)).1
    | none => plCompute K M pre.1 none
  if lsArg = some true then
    processed.enum.map (fun tp =>
      tp.2.enum.map (fun pp =>
        let orig := (teams.getD tp.1 []).getD pp.1 ⟨0, 0⟩
        let p := pp.2
        ⟨p.mu, if p.sigma ≤ orig.sigma then p.sigma else orig.sigma⟩))
  else processed

/-! ### Heap embedding of `PlackettLuce.rate` (object identity)

Python `Rating` objects are references.  `rate` reads *and writes*
`mu`/`sigma` attributes of the objects handed in by the caller
(`teams[ti][pi].sigma = ...` in the tau loop, and
`modified_player.mu = mu; modified_player.sigma = sigma` inside
`_compute`), and the lists it returns contain those same objects.  To
express this we model the object store as a heap from object ids to
rating values and translate the statement sequence literally; the
deep copy `original_teams` is a pure value snapshot (its fresh copies
are only ever read, never returned). -/

/-- A heap of rating objects, addressed by object id. -/
def Heap (α : Type) : Type := ℕ → Rating α

/-- Write one rating object. -/
def writeHeap (h : Heap α) (id : ℕ) (r : Rating α) : Heap α :=
  fun j => if j = id then r else h j

/-- `PlackettLuce.rate` over a heap: teams are lists of object ids; the
result is the returned id structure together with the final heap.
Reads and writes mirror the source statement for statement (players
are assumed distinct objects, as elsewhere in the library). -/
def plRateHeap (K : Kern α) (M : Model α) (teams : List (List ℕ))
    (h0 : Heap α) (ranks scores : Option (List α)) (tauArg : Option α)
    (lsArg : Option Bool) : List (List ℕ) × Heap α :=
  let orig := teams.map (fun tm => tm.map h0)
  let t := tauEff M tauArg
  let h1 := teams.flatten.foldl
    (fun h id =>
      writeHeap h id ⟨(h id).mu, K.sqrt ((h id).sigma * (h id).sigma + t * t)⟩)
    h0
  let ranks1 := effRanks ranks scores
  let pre :
      List (List ℕ) × Option (List α) × Option (List ℕ) :=
    if pyTruthy ranks1 then
      let rl := ranks1.getD []
      let u := unwind rl teams
      (u.1, some (rl.mergeSort (fun a b => decide (a ≤ b))), some u.2)
    else (teams, none, none)
  let vals := plCompute K M (pre.1.map (fun tm => tm.map h1)) pre.2.1
  let h2 := (pre.1.flatten.zip vals.flatten).foldl
    (fun h p => writeHeap h p.1 p.2) h1
  let outIds :=
    match pre.2.2 with
    | some ten => (unwind (ten.map (fun i : ℕ => (i : α))) pre.1).1
    | none => pre.1
  if lsArg = some true then
    let h3 := outIds.enum.foldl
      (fun h tp =>
        tp.2.enum.foldl
          (fun h pp =>
            let o := (orig.getD tp.1 []).getD pp.1 ⟨0, 0⟩
            let p := h pp.2
            writeHeap h pp.2
              ⟨p.mu, if p.sigma ≤ o.sigma then p.sigma else o.sigma⟩)
          h)
      h2
    (outIds, h3)
  else (outIds, h2)

/-! ### `openskill/rate.py` and `openskill/constants.py` (legacy API) -/

/-- The keyword options of the legacy `rate()` that matter for its
pre-processing: `mu`, `tau`, `rank`, `score`. -/
structure OldOpts (α : Type) where
  muOpt : Option α
  tauOpt : Option α
  rank : Option (List α)
  score : Option (List α)
deriving DecidableEq

/-- `constants.tau(**options)`: the supplied tau, else `mu / 300` with
`mu` defaulting to 25. -/
def oldTauConst (o : OldOpts α) : α :=
  o.tauOpt.getD (o.muOpt.getD 25 / 300)

/-- The team list the legacy `rate()` hands to the model constructor:
tau is injected *only when a `tau` option is present*, then the teams
are reordered by the rank vector (ranks, else negated scores) exactly
as in the source. -/
def oldRateComputeInput (K : Kern α) (o : OldOpts α)
    (teams : List (List (Rating α))) : List (List (Rating α)) :=
  let tau := oldTauConst o
  let teams1 :=
    if o.tauOpt.isSome then tauInject K (tau * tau) teams else teams
  let rank1 :=
    match o.rank with
    | some r => some r
    | none =>
      match o.score with
      | some s => some (s.map (fun x => -x))
      | none => none
  if pyTruthy rank1 then (unwind (rank1.getD []) teams1).1 else teams1

/-! ### `openskill/batch.py` -/

/-- A batch `Game`: teams of entity-id strings, with optional ranks,
scores and per-player weights. -/
structure Game (α : Type) where
  teams : List (List String)
  ranks : Option (List α)
  scores : Option (List α)
  weights : Option (List (List α))
deriving DecidableEq

/-- The entity set of a game (`set` union over its teams). -/
def gameEnts (g : Game α) : Finset String :=
  g.teams.flatten.toFinset

/-- Intermediate state of `partition_waves`: the waves built so far,
the per-wave entity sets, and `entity_latest_wave`. -/
structure PW (α : Type) where
  waves : List (List (ℕ × Game α))
  ents : List (Finset String)
  latest : String → Option ℕ

/-- The `min_wave` computation of `partition_waves`: one more than the
latest wave of any of the game's entities (0 when none is known). -/
def minWaveFold (latest : String → Option ℕ) (es : List String) : ℕ :=
  es.foldl
    (fun mw e =>
      match latest e with
      | some w => max mw (w + 1)
      | none => mw)
    0

/-- The placement scan of `partition_waves`: the first wave index at or
after `i` whose entity set is disjoint from `ents`. -/
def findSlot (ents : Finset String) : List (Finset String) → ℕ → Option ℕ
  | [], _ => none
  | w :: ws, i => if Disjoint ents w then some i else findSlot ents ws (i + 1)

/-- One iteration of the `partition_waves` loop: place the indexed game
in the first admissible wave at or after its `min_wave`, else append a
new wave. -/
def pwStep (st : PW α) (ig : ℕ × Game α) : PW α :=
  let es := gameEnts ig.2
  let lo := minWaveFold st.latest ig.2.teams.flatten
  match findSlot es (st.ents.drop lo) lo with
  | some w =>
    ⟨st.waves.set w (st.waves.getD w [] ++ [ig]),
     st.ents.set w (st.ents.getD w ∅ ∪ es),
     fun e => if e ∈ es then some w else st.latest e⟩
  | none =>
    ⟨st.waves ++ [[ig]], st.ents ++ [es],
     fun e => if e ∈ es then some st.waves.length else st.latest e⟩

/-- `partition_waves(games)`: conflict-free waves of `(original_index,
game)` pairs respecting chronological ordering. -/
def partitionWaves (gs : List (Game α)) : List (List (ℕ × Game α)) :=
  (gs.enum.foldl pwStep ⟨[], [], fun _ => none⟩).waves

/-- The entity set of a wave: union of its games' entity sets. -/
def waveUnion (wv : List (ℕ × Game α)) : Finset String :=
  (wv.map (fun ig => gameEnts ig.2)).foldr (· ∪ ·) ∅

/-- The loop invariant of `partition_waves` after the first `m` games
have been placed. -/
structure PWInv (gs : List (Game α)) (m : ℕ) (st : PW α) : Prop where
  len : st.waves.length = st.ents.length
  entsEq : ∀ w, st.ents.getD w ∅ = waveUnion (st.waves.getD w [])
  pair : ∀ w, (st.waves.getD w []).Pairwise
    (fun a b => Disjoint (gameEnts a.2) (gameEnts b.2))
  latestSome : ∀ e w, st.latest e = some w →
    w < st.waves.length ∧ e ∈ st.ents.getD w ∅
  latestMax : ∀ e w, e ∈ st.ents.getD w ∅ →
    ∃ w', st.latest e = some w' ∧ w ≤ w'
  flat : st.waves.flatten.Perm (gs.enum.take m)
  order : ∀ w w' ig jg, ig ∈ st.waves.getD w [] → jg ∈ st.waves.getD w' [] →
    ig.1 < jg.1 → ¬Disjoint (gameEnts ig.2) (gameEnts jg.2) → w < w'

/-! ### The fast-path single-game update
(`Ladder._rate_py` in `openskill/ladder.py`;
`BatchProcessor._rate_game_fast` and `_worker_rate_game` in
`openskill/batch.py` are the same computation on flat arrays). -/

/-- The model-specific `_compute` as the fast paths call it:
`model._compute(teams=..., ranks=..., scores=..., weights=...)`.  The
batch engine treats it as a black box, so the embedding takes it as a
parameter, which also lets the batch theorems quantify over every
model. -/
def Compute (α : Type) : Type :=
  List (List (Rating α)) → Option (List α) → Option (List α) →
    Option (List (List α)) → List (List (Rating α))

/-- The registry state: entity id to current rating.  (The flat
`mus`/`sigmas` arrays are addressed through `entity_to_idx`, so the
composite map from id to value is the whole observable state.) -/
def St (α : Type) : Type := String → Rating α

/-- The read-and-compute phase of the fast-path single-game update:
read the game's entities, apply tau in-line, convert scores to ranks,
sort teams (and the parallel id lists) by rank, run `_compute`, and
pair each entity id with its new rating.  Returns the
`(entity, new_rating)` write list. -/
def gameUpdates (K : Kern α) (C : Compute α) (tauSquared : α)
    (g : Game α) (st : St α) : List (String × Rating α) :=
  let teams := g.teams.map (fun tm => tm.map (fun eid =>
    let r := st eid
    ⟨r.mu, K.sqrt (r.sigma * r.sigma + tauSquared)⟩))
  let ranks : Option (List α) :=
    if !pyTruthy g.ranks && pyTruthy g.scores then
      some ((calcRankings K g.teams.length
        (some ((g.scores.getD []).map (fun s => -s)))).map (fun r : ℕ => (r : α)))
    else g.ranks
  let order : List ℕ :=
    match ranks with
    | some rl => argSort rl
    | none => List.range g.teams.length
  let teamsSorted := order.map (fun i => teams.getD i [])
  let idsSorted := order.map (fun i => g.teams.getD i [])
  let ranksSorted : Option (List α) :=
    ranks.map (fun rl => rl.mergeSort (fun a b => decide (a ≤ b)))
  let scoresSorted : Option (List α) :=
    g.scores.map (fun sl => order.map (fun i => sl.getD i 0))
  let weightsSorted : Option (List (List α)) :=
    g.weights.map (fun wl => order.map (fun i => wl.getD i []))
  let result := C teamsSorted ranksSorted scoresSorted weightsSorted
  idsSorted.flatten.zip result.flatten

/-- The write-back loop of the fast paths: store each new rating at its
entity's slot, clamping sigma against the stored (pre-tau) value when
`limit_sigma` is set on the model. -/
def applyWrites (limitSigma : Bool) (ps : List (String × Rating α))
    (st : St α) : St α :=
  ps.foldl
    (fun s p => fun e =>
      if e = p.1 then
        ⟨p.2.mu, if limitSigma then min p.2.sigma (s p.1).sigma else p.2.sigma⟩
      else s e)
    st

/-- The fast-path single-game update
(`Ladder._rate_py` / `BatchProcessor._rate_game_fast`). -/
def rateGameFast (K : Kern α) (C : Compute α) (tauSquared : α)
    (limitSigma : Bool) (g : Game α) (st : St α) : St α :=
  applyWrites limitSigma (gameUpdates K C tauSquared g st) st

/-- Sequential game processing: the games one at a time in input order
(`BatchProcessor._process_sequential`, and the `_old_approach`
baseline of the test-suite). -/
def rateSeq (K : Kern α) (C : Compute α) (tauSquared : α)
    (limitSigma : Bool) (gs : List (Game α)) (st : St α) : St α :=
  gs.foldl (fun s g => rateGameFast K C tauSquared limitSigma g s) st

/-- Execute a pre-built list of waves in order, each wave's games in
the listed order (`Ladder.rate_batch` executes
`partition_waves games` this way). -/
def runWaves (K : Kern α) (C : Compute α) (tauSquared : α)
    (limitSigma : Bool) (ws : List (List (ℕ × Game α))) (st : St α) : St α :=
  ws.foldl
    (fun s wave =>
      wave.foldl (fun s' ig => rateGameFast K C tauSquared limitSigma ig.2 s') s)
    st

/-- `Ladder.rate_batch(games)`: partition into waves, then process the
waves in order. -/
def rateBatch (K : Kern α) (C : Compute α) (tauSquared : α)
    (limitSigma : Bool) (gs : List (Game α)) (st : St α) : St α :=
  runWaves K C tauSquared limitSigma (partitionWaves gs) st

/-! ### `BatchProcessor.process` -/

/-- Entity registry order of `BatchProcessor.process`: every entity id
in first-seen order. -/
def registryIds (gs : List (Game α)) : List String :=
  (gs.flatMap (fun g => g.teams.flatten)).eraseDups

/-- `BatchProcessor.process(games, initial_ratings)`: with no games,
return a copy of `initial_ratings` (the empty dict when it is absent or
empty, both falsy); otherwise initialise the registry from model
defaults overridden by `initial_ratings` and process the games (the
single-worker sequential strategy embeds the reference order). -/
def processBatch (K : Kern α) (C : Compute α) (M : Model α)
    (gs : List (Game α)) (init : Option (List (String × Rating α))) :
    List (String × Rating α) :=
  if gs.isEmpty then
    match init with
    | some l => if l.isEmpty then [] else l
    | none => []
  else
    let ids := registryIds gs
    let st0 : St α := fun e =>
      match init with
      | some l =>
        if e ∈ ids then (l.lookup e).getD ⟨M.mu, M.sigma⟩ else ⟨M.mu, M.sigma⟩
      | none => ⟨M.mu, M.sigma⟩
    let stF := rateSeq K C (M.tau * M.tau) M.limitSigma gs st0
    ids.map (fun e => (e, stF e))

/-! ### The prediction queries of
`openskill/models/weng_lin/plackett_luce.py` -/

/-- Grouping into consecutive chunks of `k` elements: the effect of the
source's `zip_longest(*[iter(lst)] * k)` on a list whose length is a
multiple of `k`. -/
def chunksOf {β : Type} (k : ℕ) : List β → List (List β)
  | [] => []
  | x :: xs => (x :: xs.take (k - 1)) :: chunksOf k (xs.drop (k - 1))
termination_by l => l.length
decreasing_by
  simp only [List.length_cons]
  exact Nat.lt_succ_of_le (List.drop_sublist _ _).length_le

/-- The ordered index pairs `(i, j)`, `i ≠ j`, in the order
`itertools.permutations(teams, 2)` visits them. -/
def pairIdx (n : ℕ) : List (ℕ × ℕ) :=
  (List.range n).flatMap (fun i =>
    ((List.range n).filter (fun j => j ≠ i)).map (fun j => (i, j)))

/-- `pair_a[0]`: the first player of a team (teams are validated
nonempty). -/
def headRating (tm : List (Rating α)) : Rating α :=
  tm.headD ⟨0, 0⟩

/-- `PlackettLuce.predict_win(teams)`: the two-team case through the
team aggregates, otherwise pairwise first-player probabilities grouped
per first team (the `zip_longest` chunking) and divided by
`n*(n-1)/2`. -/
def predictWin (K : Kern α) (M : Model α) (teams : List (List (Rating α))) :
    List α :=
  let n := teams.length
  let denominator : α := ((n * (n - 1) : ℕ) : α) / 2
  if n = 2 then
    let tpc := (teams.getD 0 []).length + (teams.getD 1 []).length
    let trs := calcTeamRatings K teams none
    let a := trs.getD 0 ⟨0, 0, [], 0⟩
    let b := trs.getD 1 ⟨0, 0, [], 0⟩
    let result := K.phiMajor ((a.mu - b.mu) /
      K.sqrt ((tpc : α) * M.beta ^ 2 + a.sigmaSquared + b.sigmaSquared))
    [result, 1 - result]
  else
    let pairwise := (pairIdx n).map (fun ij =>
      let ra := headRating (teams.getD ij.1 [])
      let rb := headRating (teams.getD ij.2 [])
      K.phiMajor ((ra.mu - rb.mu) /
        K.sqrt ((n : α) * M.beta ^ 2 + ra.sigma ^ 2 + rb.sigma ^ 2)))
    (chunksOf (n - 1) pairwise).map (fun chunk => chunk.sum / denominator)

/-- `PlackettLuce.predict_draw(teams)`: draw margin from
`1/total_player_count`, first-player pairwise band probabilities,
absolute sum divided by `n*(n-1)` when `n > 2` (and by 1 when
`n = 2`). -/
def predictDraw (K : Kern α) (M : Model α) (teams : List (List (Rating α))) :
    α :=
  let n := teams.length
  let tpc := (teams.map List.length).sum
  let drawProbability : α := 1 / (tpc : α)
  let drawMargin := K.sqrt (tpc : α) * M.beta *
    K.phiMajorInverse ((1 + drawProbability) / 2)
  let pairwise := (pairIdx n).map (fun ij =>
    let ra := headRating (teams.getD ij.1 [])
    let rb := headRating (teams.getD ij.2 [])
    let d := K.sqrt ((n : α) * M.beta ^ 2 + ra.sigma ^ 2 + rb.sigma ^ 2)
    K.phiMajor ((drawMargin - ra.mu + rb.mu) / d) -
      K.phiMajor ((ra.mu - rb.mu - drawMargin) / d))
  let denominator : α := if 2 < n then ((n * (n - 1) : ℕ) : α) else 1
  |pairwise.sum| / denominator

/-- The probability phase of `PlackettLuce.predict_rank(teams)`: the
per-team beat probabilities `ranked_probability` (absolute values of the
chunked pairwise sums), in original team order. -/
def predictRankProbs (K : Kern α) (M : Model α)
    (teams : List (List (Rating α))) : List α :=
  let n := teams.length
  let tpc := (teams.map List.length).sum
  let denom : α := ((n * (n - 1) : ℕ) : α) / 2
  let drawProbability : α := 1 / (tpc : α)
  let drawMargin := K.sqrt (tpc : α) * M.beta *
    K.phiMajorInverse ((1 + drawProbability) / 2)
  let pairwise := (pairIdx n).map (fun ij =>
    let ra := headRating (teams.getD ij.1 [])
    let rb := headRating (teams.getD ij.2 [])
    K.phiMajor ((ra.mu - rb.mu - drawMargin) /
      K.sqrt ((n : α) * M.beta ^ 2 + ra.sigma ^ 2 + rb.sigma ^ 2)))
  let winProbability := (chunksOf (n - 1) pairwise).map
    (fun chunk => chunk.sum / denom)
  winProbability.map (fun x => |x|)

/-- The ranking phase of `PlackettLuce.predict_rank(teams)`: `_rank_data`
ranks of the probabilities, reflected through the maximum rank
(`abs(rank - max_ordinal) + 1`), zipped with the probabilities. -/
def rankReflect (rp : List α) : List (ℕ × α) :=
  let ranks := rankData rp
  let maxOrdinal := ranks.foldl max 0
  let ranks2 := ranks.map (fun r : ℕ => ((r : ℤ) - (maxOrdinal : ℤ)).natAbs + 1)
  ranks2.zip rp

/-- `PlackettLuce.predict_rank(teams)`: per-team beat probabilities,
competition ranks of their absolute values via `_rank_data`, reflected
through the maximum rank, zipped with the probabilities. -/
def predictRank (K : Kern α) (M : Model α) (teams : List (List (Rating α))) :
    List (ℕ × α) :=
  rankReflect (predictRankProbs K M teams)

/-- Modelled from the spec (claim C9's ranking law, to be compared with
the ranks `predictRank` returns): competition ranks of the probability
vector counted from the smallest value (`1 + number of strictly smaller
entries`, ties sharing), reflected through their maximum (`max - rank +
1`). -/
def reflectedBottomRanks (probs : List α) : List ℕ :=
  let asc := probs.map (fun p => 1 + (probs.filter (fun q => q < p)).length)
  let mx := asc.foldl max 0
  asc.map (fun r => mx - r + 1)

/-- Modelled from the spec (claim C8's formula, to be compared with
`predictDraw`): "Let p_draw = 1/N, draw_margin = sqrt(N) * beta *
PhiInverse((1 + p_draw)/2).  For every ordered pair, accumulate
Phi((draw_margin - (mu_a - mu_b))/denom) - Phi((-draw_margin -
(mu_a - mu_b))/denom).  Return the mean over pairs", with `(mu, sigma
squared)` the aggregated team values of section 4.3 of the spec. -/
def predictDrawClaim (K : Kern α) (M : Model α)
    (teams : List (List (Rating α))) : α :=
  let n := teams.length
  let tpc := (teams.map List.length).sum
  let drawProbability : α := 1 / (tpc : α)
  let drawMargin := K.sqrt (tpc : α) * M.beta *
    K.phiMajorInverse ((1 + drawProbability) / 2)
  let trs := calcTeamRatings K teams none
  let pairwise := (pairIdx n).map (fun ij =>
    let a := trs.getD ij.1 ⟨0, 0, [], 0⟩
    let b := trs.getD ij.2 ⟨0, 0, [], 0⟩
    let d := K.sqrt ((n : α) * M.beta ^ 2 + a.sigmaSquared + b.sigmaSquared)
    K.phiMajor ((drawMargin - (a.mu - b.mu)) / d) -
      K.phiMajor ((-drawMargin - (a.mu - b.mu)) / d))
  pairwise.sum / ((n * (n - 1) : ℕ) : α)

/-- The draw estimate the code actually returns, written in the
amended claim's terms: the spec's accumulands (second CDF argument
`-draw_margin - (mu_a - mu_b)`), but evaluated at each team's *first
player* and divided by `n*(n-1)` only when `n > 2` — for two teams the
plain sum of the two pairwise values (twice their mean) is returned. -/
def predictDrawAmended (K : Kern α) (M : Model α)
    (teams : List (List (Rating α))) : α :=
  let n := teams.length
  let tpc := (teams.map List.length).sum
  let drawProbability : α := 1 / (tpc : α)
  let drawMargin := K.sqrt (tpc : α) * M.beta *
    K.phiMajorInverse ((1 + drawProbability) / 2)
  let pairwise := (pairIdx n).map (fun ij =>
    let ra := headRating (teams.getD ij.1 [])
    let rb := headRating (teams.getD ij.2 [])
    let d := K.sqrt ((n : α) * M.beta ^ 2 + ra.sigma ^ 2 + rb.sigma ^ 2)
    K.phiMajor ((drawMargin - (ra.mu - rb.mu)) / d) -
      K.phiMajor ((-drawMargin - (ra.mu - rb.mu)) / d))
  pairwise.sum / (if 2 < n then ((n * (n - 1) : ℕ) : α) else 1)

end OpenSkill

namespace OpenSkill

/-! ### The real-number kernel -/

/-- The standard normal CDF over the reals. -/
noncomputable def stdNormalCdf (x : ℝ) : ℝ :=
  (∫ t in Set.Iic x, Real.exp (-(t ^ 2) / 2)) / Real.sqrt (2 * Real.pi)

/-- The real-number kernel: `math.sqrt`, `math.exp` and the normal CDF
realised by their exact real counterparts (rank/score entries are
treated as float-typed, so `isInt` is `false`). -/
noncomputable def rKern : Kern ℝ :=
  ⟨Real.sqrt, Real.exp, stdNormalCdf, Function.invFun stdNormalCdf,
    fun _ => false⟩

/-- A computable rational kernel used to evaluate the embedding at
concrete inputs.  Its CDF stand-in satisfies the axioms the prediction
theorems assume of the normal CDF (monotone, `phi x + phi (-x) = 1`),
its square root stand-in is positive, and its inverse-CDF stand-in is
nonnegative at arguments at least one half. -/
def dKern : Kern ℚ :=
  ⟨fun _ => 1, fun _ => 1, fun x => x + 1 / 2, id, fun _ => true⟩

/-- Competition ranking of a probability vector, counted from the top:
rank `1 + (number of strictly higher probabilities)`, so ties share a
rank and the next rank after a tie is offset by the tie count
(1, 1, 3, ...). -/
def CompetitionRanks {α : Type} [LinearOrderedField α]
    (ranks : List ℕ) (probs : List α) : Prop :=
  ranks.length = probs.length ∧
    ∀ i < ranks.length,
      ranks.getD i 0 = 1 + (probs.filter (fun q => probs.getD i 0 < q)).length

/-- An execution order obtained from a wave list by permuting each wave
internally (same waves in the same order, each wave's games in any
order). -/
def WaveShuffle {α : Type} [LinearOrderedField α]
    (ws es : List (List (ℕ × Game α))) : Prop :=
  es.length = ws.length ∧ ∀ i < ws.length, (es.getD i []).Perm (ws.getD i [])

end OpenSkill


namespace OpenSkill

/-! ## Properties of `_unwind` -/

variable {α : Type} [LinearOrderedField α] {β γ : Type}

lemma rowLe_trans (a b c : α × β × ℕ) (h₁ : rowLe a b) (h₂ : rowLe b c) :
    rowLe a c := by
  simp only [rowLe, decide_eq_true_eq] at *
  exact le_trans h₁ h₂

lemma rowLe_total (a b : α × β × ℕ) : rowLe a b || rowLe b a := by
  simp only [rowLe, Bool.or_eq_true, decide_eq_true_eq]
  exact le_total a.1 b.1

lemma unwindRows_perm (tenet : List α) (objs : List β) :
    (unwindRows tenet objs).Perm
      (tenet.zip (objs.zip (List.range objs.length))) :=
  List.mergeSort_perm _ _

lemma zipTriple_length (tenet : List α) (objs : List β)
    (h : tenet.length = objs.length) :
    (tenet.zip (objs.zip (List.range objs.length))).length = objs.length := by
  rw [List.length_zip, List.length_zip, List.length_range, h, min_self,
    min_self]

lemma unwindRows_length (tenet : List α) (objs : List β)
    (h : tenet.length = objs.length) :
    (unwindRows tenet objs).length = objs.length := by
  rw [(unwindRows_perm tenet objs).length_eq, zipTriple_length _ _ h]

lemma mem_zipTriple {tenet : List α} {objs : List β}
    {r : α × β × ℕ} (h : tenet.length = objs.length)
    (hr : r ∈ tenet.zip (objs.zip (List.range objs.length))) :
    ∃ k, ∃ _ : k < objs.length,
      r = (tenet.getD k r.1, (objs.getD k r.2.1, k)) := by
  obtain ⟨k, hk, he⟩ := List.mem_iff_getElem.1 hr
  have hk' : k < objs.length := by
    rw [zipTriple_length _ _ h] at hk
    exact hk
  refine ⟨k, hk', ?_⟩
  rw [List.getElem_zip, List.getElem_zip, List.getElem_range] at he
  rw [← he, List.getD_eq_getElem _ _ (h ▸ hk'), List.getD_eq_getElem _ _ hk']

lemma unwindRows_mem {tenet : List α} {objs : List β}
    {r : α × β × ℕ} (h : tenet.length = objs.length)
    (hr : r ∈ unwindRows tenet objs) :
    ∃ k, ∃ _ : k < objs.length,
      r = (tenet.getD k r.1, (objs.getD k r.2.1, k)) :=
  mem_zipTriple h ((unwindRows_perm tenet objs).mem_iff.1 hr)

lemma zipTriple_map_obj (tenet : List α) (objs : List β)
    (h : tenet.length = objs.length) :
    (tenet.zip (objs.zip (List.range objs.length))).map (fun r => r.2.1) =
      objs := by
  have h1 : List.map Prod.snd (tenet.zip (objs.zip (List.range objs.length)))
      = objs.zip (List.range objs.length) := by
    apply List.map_snd_zip
    rw [List.length_zip, List.length_range, min_self, h]
  have h2 : List.map Prod.fst (objs.zip (List.range objs.length)) = objs := by
    apply List.map_fst_zip
    rw [List.length_range]
  calc (tenet.zip (objs.zip (List.range objs.length))).map (fun r => r.2.1)
      = ((tenet.zip (objs.zip (List.range objs.length))).map
          Prod.snd).map Prod.fst := by rw [List.map_map]; rfl
    _ = objs := by rw [h1, h2]

lemma zipTriple_map_idx (tenet : List α) (objs : List β)
    (h : tenet.length = objs.length) :
    (tenet.zip (objs.zip (List.range objs.length))).map (fun r => r.2.2) =
      List.range objs.length := by
  have h1 : List.map Prod.snd (tenet.zip (objs.zip (List.range objs.length)))
      = objs.zip (List.range objs.length) := by
    apply List.map_snd_zip
    rw [List.length_zip, List.length_range, min_self, h]
  have h2 : List.map Prod.snd (objs.zip (List.range objs.length)) =
      List.range objs.length := by
    apply List.map_snd_zip
    rw [List.length_range]
  calc (tenet.zip (objs.zip (List.range objs.length))).map (fun r => r.2.2)
      = ((tenet.zip (objs.zip (List.range objs.length))).map
          Prod.snd).map Prod.snd := by rw [List.map_map]; rfl
    _ = List.range objs.length := by rw [h1, h2]

lemma unwind_fst_perm (tenet : List α) (objs : List β)
    (h : tenet.length = objs.length) :
    (unwind tenet objs).1.Perm objs := by
  have := (unwindRows_perm tenet objs).map (fun r : α × β × ℕ => r.2.1)
  rw [zipTriple_map_obj _ _ h] at this
  exact this

lemma unwind_snd_perm (tenet : List α) (objs : List β)
    (h : tenet.length = objs.length) :
    (unwind tenet objs).2.Perm (List.range objs.length) := by
  have := (unwindRows_perm tenet objs).map (fun r : α × β × ℕ => r.2.2)
  rw [zipTriple_map_idx _ _ h] at this
  exact this

lemma unwindRows_pairwise (tenet : List α) (objs : List β) :
    List.Pairwise (fun a b : α × β × ℕ => a.1 ≤ b.1)
      (unwindRows tenet objs) := by
  have hs := @List.sorted_mergeSort _ rowLe
    (fun a b c h₁ h₂ => rowLe_trans a b c h₁ h₂)
    (fun a b => rowLe_total a b)
    (tenet.zip (objs.zip (List.range objs.length)))
  exact hs.imp (fun h => by simpa [rowLe, decide_eq_true_eq] using h)

lemma unwindRows_keys_sorted (tenet : List α) (objs : List β) :
    List.Sorted (· ≤ ·) ((unwindRows tenet objs).map (fun r => r.1)) := by
  have := unwindRows_pairwise tenet objs
  unfold List.Sorted
  rw [List.pairwise_map]
  exact this

end OpenSkill

namespace OpenSkill

variable {α : Type} [LinearOrderedField α] {β γ : Type}

lemma unwind_fst_length (tenet : List α) (objs : List β)
    (h : tenet.length = objs.length) :
    (unwind tenet objs).1.length = objs.length := by
  show ((unwindRows tenet objs).map _).length = _
  rw [List.length_map, unwindRows_length _ _ h]

lemma unwind_snd_length (tenet : List α) (objs : List β)
    (h : tenet.length = objs.length) :
    (unwind tenet objs).2.length = objs.length := by
  show ((unwindRows tenet objs).map _).length = _
  rw [List.length_map, unwindRows_length _ _ h]

/-- Positional form of the first `_unwind`: the `j`-th sorted team is
the input team at the `j`-th tenet position. -/
lemma unwind_pos (tenet : List α) (objs : List β)
    (h : tenet.length = objs.length) (d : β) (j : ℕ)
    (hj : j < objs.length) :
    ∃ k, ∃ _ : k < objs.length, (unwind tenet objs).2.getD j 0 = k ∧
      (unwind tenet objs).1.getD j d = objs.getD k d := by
  have hlen : j < (unwindRows tenet objs).length := by
    rw [unwindRows_length _ _ h]
    exact hj
  obtain ⟨k, hk, he⟩ :=
    unwindRows_mem h (List.getElem_mem hlen)
  refine ⟨k, hk, ?_, ?_⟩
  · show ((unwindRows tenet objs).map (fun r => r.2.2)).getD j 0 = k
    rw [List.getD_eq_getElem _ _ (by rw [List.length_map]; exact hlen),
      List.getElem_map]
    rw [he]
  · show ((unwindRows tenet objs).map (fun r => r.2.1)).getD j d = _
    rw [List.getD_eq_getElem _ _ (by rw [List.length_map]; exact hlen),
      List.getElem_map]
    conv_lhs => rw [he]
    rw [List.getD_eq_getElem _ _ hk, List.getD_eq_getElem _ _ hk]

/-- Keys of the second `_unwind`'s sorted rows, when the tenet is a
permutation of `0..n-1`: they come out as exactly `0, 1, ..., n-1`. -/
lemma unwindRows_keys_of_perm_range (ten : List ℕ) (res : List γ) (n : ℕ)
    (hp : ten.Perm (List.range n)) (hr : res.length = n) :
    (unwindRows (ten.map (fun j : ℕ => (j : α))) res).map (fun r => r.1) =
      (List.range n).map (fun j : ℕ => (j : α)) := by
  have hlen : (ten.map (fun j : ℕ => (j : α))).length = res.length := by
    rw [List.length_map, hp.length_eq, List.length_range, hr]
  have hperm : ((unwindRows (ten.map (fun j : ℕ => (j : α))) res).map
      (fun r => r.1)).Perm ((List.range n).map (fun j : ℕ => (j : α))) := by
    have h1 := (unwindRows_perm (ten.map (fun j : ℕ => (j : α))) res).map
      (fun r : α × γ × ℕ => r.1)
    have h2 : ((ten.map (fun j : ℕ => (j : α))).zip
        (res.zip (List.range res.length))).map (fun r => r.1) =
        ten.map (fun j : ℕ => (j : α)) := by
      have : (fun r : α × γ × ℕ => r.1) = Prod.fst := rfl
      rw [this]
      apply List.map_fst_zip
      rw [List.length_zip, List.length_range, min_self, hlen]
    rw [h2] at h1
    exact h1.trans (hp.map _)
  have hsorted := unwindRows_keys_sorted (ten.map (fun j : ℕ => (j : α))) res
  have hsorted' : List.Sorted (· ≤ ·)
      ((List.range n).map (fun j : ℕ => (j : α))) := by
    unfold List.Sorted
    rw [List.pairwise_map]
    exact (List.pairwise_le_range n).imp (fun h => by exact_mod_cast h)
  exact List.eq_of_perm_of_sorted hperm hsorted hsorted'

/-- Inversion: un-permuting any list of the right length by a tenet
that is a permutation of `0..n-1` places at output position `i` the
entry whose tenet value is `i`. -/
lemma unwind_inv (ten : List ℕ) (res : List γ) (n : ℕ) (d : γ)
    (hp : ten.Perm (List.range n)) (hr : res.length = n)
    (i : ℕ) (hi : i < n) :
    ∃ k, ∃ _ : k < n, ten.getD k 0 = i ∧
      (unwind (ten.map (fun j : ℕ => (j : α))) res).1.getD i d = res.getD k d := by
  have hlen : (ten.map (fun j : ℕ => (j : α))).length = res.length := by
    rw [List.length_map, hp.length_eq, List.length_range, hr]
  have hrows : (unwindRows (ten.map (fun j : ℕ => (j : α))) res).length = n := by
    rw [unwindRows_length _ _ hlen, hr]
  have hi' : i < (unwindRows (ten.map (fun j : ℕ => (j : α))) res).length := by
    rw [hrows]; exact hi
  -- the i-th row
  obtain ⟨k, hk, he⟩ := unwindRows_mem hlen (List.getElem_mem hi')
  have hk' : k < n := by rw [← hr]; exact hk
  have hkey : ((unwindRows (ten.map (fun j : ℕ => (j : α))) res)[i]).1 = (i : α) := by
    have h1 : ((unwindRows (ten.map (fun j : ℕ => (j : α))) res).map
        (fun r => r.1)).getD i 0 = (i : α) := by
      rw [unwindRows_keys_of_perm_range ten res n hp hr]
      rw [List.getD_eq_getElem _ _ (by rw [List.length_map, List.length_range]; exact hi),
        List.getElem_map, List.getElem_range]
    rw [List.getD_eq_getElem _ _ (by rw [List.length_map]; exact hi'),
      List.getElem_map] at h1
    exact h1
  have htenk : ten.getD k 0 = i := by
    have h2 : ((unwindRows (ten.map (fun j : ℕ => (j : α))) res)[i]).1 =
        (ten.map (fun j : ℕ => (j : α))).getD k
          ((unwindRows (ten.map (fun j : ℕ => (j : α))) res)[i]).1 := by
      conv_lhs => rw [he]
    rw [hkey] at h2
    have hk2 : k < ten.length := by
      rw [hp.length_eq, List.length_range]; exact hk'
    rw [List.getD_eq_getElem _ _ (by rw [List.length_map]; exact hk2),
      List.getElem_map] at h2
    have := @Nat.cast_injective α _ _ _ _ h2.symm
    rw [List.getD_eq_getElem _ _ hk2]
    exact this.symm ▸ rfl
  refine ⟨k, hk', htenk, ?_⟩
  show ((unwindRows (ten.map (fun j : ℕ => (j : α))) res).map
      (fun r => r.2.1)).getD i d = _
  rw [List.getD_eq_getElem _ _ (by rw [List.length_map]; exact hi'),
    List.getElem_map]
  conv_lhs => rw [he]
  rw [List.getD_eq_getElem _ _ hk, List.getD_eq_getElem _ _ hk]

end OpenSkill

namespace OpenSkill

/-! ## Properties of `partition_waves` -/

variable {α : Type} [LinearOrderedField α]

lemma foldr_union_init (l : List (Finset String)) (a : Finset String) :
    l.foldr (· ∪ ·) a = l.foldr (· ∪ ·) ∅ ∪ a := by
  induction l with
  | nil => simp
  | cons x xs ih => simp [List.foldr_cons, ih, Finset.union_assoc]

lemma waveUnion_append (wv : List (ℕ × Game α)) (x : ℕ × Game α) :
    waveUnion (wv ++ [x]) = waveUnion wv ∪ gameEnts x.2 := by
  unfold waveUnion
  rw [List.map_append, List.foldr_append, foldr_union_init]
  simp

lemma waveUnion_cons (x : ℕ × Game α) (xs : List (ℕ × Game α)) :
    waveUnion (x :: xs) = gameEnts x.2 ∪ waveUnion xs := rfl

lemma mem_waveUnion {e : String} {wv : List (ℕ × Game α)} :
    e ∈ waveUnion wv ↔ ∃ ig ∈ wv, e ∈ gameEnts ig.2 := by
  induction wv with
  | nil => simp [waveUnion]
  | cons x xs ih =>
    rw [waveUnion_cons]
    simp only [Finset.mem_union, ih, List.mem_cons]
    constructor
    · rintro (h | ⟨ig, hig, he⟩)
      · exact ⟨x, Or.inl rfl, h⟩
      · exact ⟨ig, Or.inr hig, he⟩
    · rintro ⟨ig, (rfl | hig), he⟩
      · exact Or.inl he
      · exact Or.inr ⟨ig, hig, he⟩

lemma findSlot_some {ents : Finset String} :
    ∀ (l : List (Finset String)) (i w : ℕ), findSlot ents l i = some w →
      i ≤ w ∧ w - i < l.length ∧ Disjoint ents (l.getD (w - i) ∅) := by
  intro l
  induction l with
  | nil => intro i w h; simp [findSlot] at h
  | cons x xs ih =>
    intro i w h
    by_cases hd : Disjoint ents x
    · simp only [findSlot, hd, if_pos, Option.some.injEq] at h
      subst h
      simp [hd]
    · simp only [findSlot, hd, if_neg, not_false_iff] at h
      obtain ⟨h1, h2, h3⟩ := ih (i + 1) w h
      refine ⟨le_trans (Nat.le_succ i) h1, ?_, ?_⟩
      · simp only [List.length_cons]
        omega
      · have : w - i = (w - (i + 1)) + 1 := by omega
        rw [this]
        simpa using h3

lemma minWaveFold_acc_le (latest : String → Option ℕ) (es : List String) :
    ∀ acc : ℕ, acc ≤ es.foldl
      (fun mw e => match latest e with
        | some w => max mw (w + 1)
        | none => mw) acc := by
  induction es with
  | nil => intro acc; simp
  | cons x xs ih =>
    intro acc
    refine le_trans ?_ (ih _)
    cases h : latest x <;> simp [h]

lemma minWaveFold_ge (latest : String → Option ℕ) (es : List String)
    (e : String) (he : e ∈ es) (w : ℕ) (hw : latest e = some w) :
    w + 1 ≤ minWaveFold latest es := by
  unfold minWaveFold
  have key : ∀ (l : List String) (acc : ℕ), e ∈ l →
      w + 1 ≤ l.foldl
        (fun mw e => match latest e with
          | some w => max mw (w + 1)
          | none => mw) acc := by
    intro l
    induction l with
    | nil => intro acc h; simp at h
    | cons x xs ih =>
      intro acc h
      rcases List.mem_cons.1 h with rfl | hx
      · refine le_trans ?_ (minWaveFold_acc_le latest xs _)
        simp [hw]
      · exact ih _ hx
  exact key es 0 he

lemma minWaveFold_le (latest : String → Option ℕ) (es : List String)
    (bound : ℕ) (h : ∀ e w, latest e = some w → w < bound) :
    minWaveFold latest es ≤ bound := by
  unfold minWaveFold
  have : ∀ acc, acc ≤ bound → es.foldl
      (fun mw e => match latest e with
        | some w => max mw (w + 1)
        | none => mw) acc ≤ bound := by
    induction es with
    | nil => intro acc hacc; simpa using hacc
    | cons x xs ih =>
      intro acc hacc
      apply ih
      cases hx : latest x with
      | none => simpa [hx] using hacc
      | some w =>
        have hb := h x w hx
        simp only [hx, max_le_iff]
        omega
  exact this 0 (Nat.zero_le _)

lemma flatten_set_append {γ : Type} (l : List (List γ)) (w : ℕ)
    (hw : w < l.length) (x : γ) :
    (l.set w (l.getD w [] ++ [x])).flatten.Perm (l.flatten ++ [x]) := by
  induction l generalizing w with
  | nil => simp at hw
  | cons y ys ih =>
    cases w with
    | zero =>
      simp only [List.set_cons_zero, List.getD_cons_zero, List.flatten_cons]
      have h1 : (y ++ [x]) ++ ys.flatten = y ++ ([x] ++ ys.flatten) := by
        rw [List.append_assoc]
      have h2 : ([x] ++ ys.flatten).Perm (ys.flatten ++ [x]) :=
        List.perm_append_comm
      rw [h1, List.append_assoc]
      exact h2.append_left y
    | succ w' =>
      have hw' : w' < ys.length := by
        simpa using hw
      simp only [List.set_cons_succ, List.getD_cons_succ, List.flatten_cons]
      rw [List.append_assoc]
      exact (ih w' hw').append_left y

end OpenSkill

namespace OpenSkill

variable {α : Type} [LinearOrderedField α]

lemma getD_set_self {γ : Type} (l : List γ) (i : ℕ) (hi : i < l.length)
    (a d : γ) : (l.set i a).getD i d = a := by
  rw [List.getD_eq_getElem _ _ (by rw [List.length_set]; exact hi)]
  exact List.getElem_set_self _

lemma getD_set_ne {γ : Type} (l : List γ) (i j : ℕ) (h : i ≠ j) (a d : γ) :
    (l.set i a).getD j d = l.getD j d := by
  by_cases hj : j < l.length
  · rw [List.getD_eq_getElem _ _ (by rw [List.length_set]; exact hj),
      List.getD_eq_getElem _ _ hj]
    exact List.getElem_set_ne h _
  · rw [List.getD_eq_default _ _ (by rw [List.length_set]; omega),
      List.getD_eq_default _ _ (by omega)]

lemma getD_drop' {γ : Type} (l : List γ) (i j : ℕ) (d : γ) :
    (l.drop i).getD j d = l.getD (i + j) d := by
  by_cases h : j < (l.drop i).length
  · rw [List.getD_eq_getElem _ _ h, List.getElem_drop,
      List.getD_eq_getElem _ _ (by rw [List.length_drop] at h; omega)]
  · rw [List.getD_eq_default _ _ (by omega),
      List.getD_eq_default _ _ (by rw [List.length_drop] at h; omega)]

lemma enum_take_fst_lt {γ : Type} (l : List γ) (m : ℕ) (ig : ℕ × γ)
    (h : ig ∈ l.enum.take m) : ig.1 < m := by
  obtain ⟨k, hk, he⟩ := List.mem_iff_getElem.1 h
  have hk2 : k < l.enum.length := by
    have := hk
    rw [List.length_take] at this
    omega
  rw [List.getElem_take] at he
  rw [List.enum_length] at hk2
  rw [List.getElem_enum] at he
  have : ig.1 = k := by rw [← he]
  rw [List.length_take] at hk
  omega

lemma enum_take_snd {γ : Type} (l : List γ) (m : ℕ) (ig : ℕ × γ) (d : γ)
    (h : ig ∈ l.enum.take m) : ig.2 = l.getD ig.1 d := by
  obtain ⟨k, hk, he⟩ := List.mem_iff_getElem.1 h
  have hk2 : k < l.enum.length := by
    rw [List.length_take] at hk
    omega
  rw [List.getElem_take] at he
  rw [List.enum_length] at hk2
  rw [List.getElem_enum] at he
  have h1 : ig.1 = k := by rw [← he]
  have h2 : ig.2 = l[k] := by rw [← he]
  rw [h2, h1, List.getD_eq_getElem _ _ hk2]

lemma enum_take_succ {γ : Type} (l : List γ) (m : ℕ) (h : m < l.length) :
    l.enum.take (m + 1) = l.enum.take m ++ [(m, l[m])] := by
  rw [List.take_succ]
  simp [List.getElem?_eq_getElem, List.enum_length, h]

lemma gameEnts_subset_waveUnion {ig : ℕ × Game α}
    {wv : List (ℕ × Game α)} (h : ig ∈ wv) :
    gameEnts ig.2 ⊆ waveUnion wv := by
  intro e he
  exact mem_waveUnion.2 ⟨ig, h, he⟩

end OpenSkill

namespace OpenSkill

variable {α : Type} [LinearOrderedField α]

lemma pwStep_inv {gs : List (Game α)} {m : ℕ} {st : PW α} {g : Game α}
    (inv : PWInv gs m st) (hm : m < gs.length) (hg : gs[m] = g) :
    PWInv gs (m + 1) (pwStep st (m, g)) := by
  have hidx : ∀ jg ∈ st.waves.flatten, jg.1 < m := fun jg hjg =>
    enum_take_fst_lt gs m jg (inv.flat.mem_iff.1 hjg)
  have hmemw : ∀ w (jg : ℕ × Game α), jg ∈ st.waves.getD w [] →
      jg ∈ st.waves.flatten := by
    intro w jg h
    by_cases hw : w < st.waves.length
    · refine List.mem_flatten.2 ⟨st.waves.getD w [], ?_, h⟩
      rw [List.getD_eq_getElem _ _ hw]
      exact List.getElem_mem hw
    · rw [List.getD_eq_default _ _ (by omega)] at h
      simp at h
  have hgetidx : ∀ w (jg : ℕ × Game α), jg ∈ st.waves.getD w [] → jg.1 < m :=
    fun w jg h => hidx jg (hmemw w jg h)
  have hlo_le : minWaveFold st.latest g.teams.flatten ≤ st.waves.length :=
    minWaveFold_le _ _ _ (fun e w h => (inv.latestSome e w h).1)
  have hshare : ∀ e w0, e ∈ gameEnts g → e ∈ st.ents.getD w0 ∅ →
      w0 < minWaveFold st.latest g.teams.flatten := by
    intro e w0 hee hew
    obtain ⟨w1, hl1, hw1⟩ := inv.latestMax e w0 hew
    have h2 := minWaveFold_ge st.latest g.teams.flatten e
      (List.mem_toFinset.1 hee) w1 hl1
    omega
  have hflat_step : ∀ wv : List (List (ℕ × Game α)),
      wv.flatten.Perm (st.waves.flatten ++ [(m, g)]) →
      wv.flatten.Perm (gs.enum.take (m + 1)) := by
    intro wv hp
    refine hp.trans ?_
    rw [enum_take_succ gs m hm, hg]
    exact inv.flat.append_right _
  cases hslot : findSlot (gameEnts g)
      (st.ents.drop (minWaveFold st.latest g.teams.flatten))
      (minWaveFold st.latest g.teams.flatten) with
  | some w =>
    obtain ⟨hw_lo, hw_lt, hw_disj⟩ := findSlot_some _ _ _ hslot
    rw [List.length_drop] at hw_lt
    have hw_len : w < st.ents.length := by omega
    have hw_len' : w < st.waves.length := by rw [inv.len]; exact hw_len
    rw [getD_drop'] at hw_disj
    have hww : minWaveFold st.latest g.teams.flatten +
        (w - minWaveFold st.latest g.teams.flatten) = w := by omega
    rw [hww] at hw_disj
    have hstep : pwStep st (m, g) =
        ⟨st.waves.set w (st.waves.getD w [] ++ [(m, g)]),
         st.ents.set w (st.ents.getD w ∅ ∪ gameEnts g),
         fun e => if e ∈ gameEnts g then some w else st.latest e⟩ := by
      simp only [pwStep, hslot]
    rw [hstep]
    constructor
    case len => simp [List.length_set, inv.len]
    case entsEq =>
      intro w0
      by_cases hw0 : w0 = w
      · subst hw0
        rw [getD_set_self _ _ hw_len, getD_set_self _ _ hw_len',
          waveUnion_append, inv.entsEq w0]
      · rw [getD_set_ne _ _ _ (fun h => hw0 h.symm),
          getD_set_ne _ _ _ (fun h => hw0 h.symm), inv.entsEq w0]
    case pair =>
      intro w0
      by_cases hw0 : w0 = w
      · subst hw0
        rw [getD_set_self _ _ hw_len']
        rw [List.pairwise_append]
        refine ⟨inv.pair w0, List.pairwise_singleton _ _, ?_⟩
        intro a ha b hb
        rw [List.mem_singleton] at hb
        subst hb
        have hsub : gameEnts a.2 ⊆ st.ents.getD w0 ∅ := by
          rw [inv.entsEq w0]
          exact gameEnts_subset_waveUnion ha
        exact (Finset.disjoint_of_subset_right hsub hw_disj).symm
      · rw [getD_set_ne _ _ _ (fun h => hw0 h.symm)]
        exact inv.pair w0
    case latestSome =>
      intro e w0 hl
      by_cases he : e ∈ gameEnts g
      · simp only [he, if_pos] at hl
        cases hl
        refine ⟨by rw [List.length_set]; exact hw_len', ?_⟩
        rw [getD_set_self _ _ hw_len]
        exact Finset.mem_union_right _ he
      · simp only [he, if_neg, not_false_iff] at hl
        obtain ⟨h1, h2⟩ := inv.latestSome e w0 hl
        refine ⟨by rw [List.length_set]; exact h1, ?_⟩
        by_cases hw0 : w0 = w
        · subst hw0
          rw [getD_set_self _ _ hw_len]
          exact Finset.mem_union_left _ h2
        · rw [getD_set_ne _ _ _ (fun h => hw0 h.symm)]
          exact h2
    case latestMax =>
      intro e w0 hmem
      by_cases he : e ∈ gameEnts g
      · refine ⟨w, by simp [he], ?_⟩
        by_cases hw0 : w0 = w
        · omega
        · rw [getD_set_ne _ _ _ (fun h => hw0 h.symm)] at hmem
          have := hshare e w0 he hmem
          omega
      · simp only [he, if_neg, not_false_iff]
        by_cases hw0 : w0 = w
        · subst hw0
          rw [getD_set_self _ _ hw_len] at hmem
          rcases Finset.mem_union.1 hmem with h2 | h2
          · exact inv.latestMax e w0 h2
          · exact absurd h2 he
        · rw [getD_set_ne _ _ _ (fun h => hw0 h.symm)] at hmem
          exact inv.latestMax e w0 hmem
    case flat =>
      exact hflat_step _ (flatten_set_append _ _ hw_len' _)
    case order =>
      intro w0 w0' ig0 jg0 hig0 hjg0 hlt hnd
      -- classify membership in the modified wave list
      have hclass : ∀ w1 (kg : ℕ × Game α),
          kg ∈ (st.waves.set w (st.waves.getD w [] ++ [(m, g)])).getD w1 [] →
          kg ∈ st.waves.getD w1 [] ∨ (kg = (m, g) ∧ w1 = w) := by
        intro w1 kg hk
        by_cases hw1 : w1 = w
        · subst hw1
          rw [getD_set_self _ _ hw_len'] at hk
          rcases List.mem_append.1 hk with h | h
          · exact Or.inl h
          · rw [List.mem_singleton] at h
            exact Or.inr ⟨h, rfl⟩
        · rw [getD_set_ne _ _ _ (fun h => hw1 h.symm)] at hk
          exact Or.inl hk
      rcases hclass _ _ hig0 with hio | ⟨rfl, rfl⟩
      · rcases hclass _ _ hjg0 with hjo | ⟨rfl, rfl⟩
        · exact inv.order w0 w0' ig0 jg0 hio hjo hlt hnd
        · -- jg0 is the new game: its wave is w, and ig0 shares an entity
          obtain ⟨e, he1, he2⟩ := Finset.not_disjoint_iff.1 hnd
          have hew0 : e ∈ st.ents.getD w0 ∅ := by
            rw [inv.entsEq w0]
            exact gameEnts_subset_waveUnion hio he1
          have := hshare e w0 he2 hew0
          omega
      · -- ig0 is the new game: every other game has smaller index
        rcases hclass _ _ hjg0 with hjo | ⟨rfl, rfl⟩
        · have := hgetidx _ _ hjo
          omega
        · omega
  | none =>
    have hstep : pwStep st (m, g) =
        ⟨st.waves ++ [[(m, g)]], st.ents ++ [gameEnts g],
         fun e => if e ∈ gameEnts g then some st.waves.length
           else st.latest e⟩ := by
      simp only [pwStep, hslot]
    rw [hstep]
    have hlen' : (st.waves ++ [[(m, g)]]).length = st.waves.length + 1 := by
      simp
    constructor
    case len => simp [inv.len]
    case entsEq =>
      intro w0
      rcases lt_trichotomy w0 st.waves.length with h | h | h
      · rw [List.getD_append _ _ _ _ (by rw [← inv.len]; exact h),
          List.getD_append _ _ _ _ h, inv.entsEq w0]
      · subst h
        rw [List.getD_append_right _ _ _ _ (by rw [inv.len]),
          List.getD_append_right _ _ _ _ (le_refl _)]
        rw [inv.len, Nat.sub_self]
        simp [waveUnion, gameEnts]
      · rw [List.getD_eq_default _ _ (by simp [← inv.len]; omega),
          List.getD_eq_default _ _ (by simp; omega)]
        simp [waveUnion]
    case pair =>
      intro w0
      rcases lt_trichotomy w0 st.waves.length with h | h | h
      · rw [List.getD_append _ _ _ _ h]
        exact inv.pair w0
      · subst h
        rw [List.getD_append_right _ _ _ _ (le_refl _), Nat.sub_self]
        simp
      · rw [List.getD_eq_default _ _ (by simp; omega)]
        simp
    case latestSome =>
      intro e w0 hl
      by_cases he : e ∈ gameEnts g
      · simp only [he, if_pos] at hl
        cases hl
        refine ⟨by simp, ?_⟩
        rw [List.getD_append_right _ _ _ _ (by rw [inv.len]), inv.len,
          Nat.sub_self]
        simpa using he
      · simp only [he, if_neg, not_false_iff] at hl
        obtain ⟨h1, h2⟩ := inv.latestSome e w0 hl
        refine ⟨by simp; omega, ?_⟩
        rw [List.getD_append _ _ _ _ (by rw [← inv.len]; exact h1)]
        exact h2
    case latestMax =>
      intro e w0 hmem
      by_cases he : e ∈ gameEnts g
      · refine ⟨st.waves.length, by simp [he], ?_⟩
        have hle := inv.len
        rcases lt_trichotomy w0 st.ents.length with h | h | h
        · omega
        · omega
        · rw [List.getD_eq_default _ _ (by simp; omega)] at hmem
          simp at hmem
      · simp only [he, if_neg, not_false_iff]
        rcases lt_trichotomy w0 st.ents.length with h | h | h
        · rw [List.getD_append _ _ _ _ h] at hmem
          exact inv.latestMax e w0 hmem
        · subst h
          rw [List.getD_append_right _ _ _ _ (le_refl _), Nat.sub_self] at hmem
          simp at hmem
          exact absurd hmem he
        · rw [List.getD_eq_default _ _ (by simp; omega)] at hmem
          simp at hmem
    case flat =>
      refine hflat_step _ ?_
      rw [List.flatten_append]
      simp
    case order =>
      intro w0 w0' ig0 jg0 hig0 hjg0 hlt hnd
      have hclass : ∀ w1 (kg : ℕ × Game α),
          kg ∈ (st.waves ++ [[(m, g)]]).getD w1 [] →
          (kg ∈ st.waves.getD w1 [] ∧ w1 < st.waves.length) ∨
            (kg = (m, g) ∧ w1 = st.waves.length) := by
        intro w1 kg hk
        rcases lt_trichotomy w1 st.waves.length with h | h | h
        · rw [List.getD_append _ _ _ _ h] at hk
          exact Or.inl ⟨hk, h⟩
        · subst h
          rw [List.getD_append_right _ _ _ _ (le_refl _), Nat.sub_self] at hk
          simp at hk
          exact Or.inr ⟨hk, rfl⟩
        · rw [List.getD_eq_default _ _ (by simp; omega)] at hk
          simp at hk
      rcases hclass _ _ hig0 with ⟨hio, hiw⟩ | ⟨rfl, rfl⟩
      · rcases hclass _ _ hjg0 with ⟨hjo, _⟩ | ⟨rfl, rfl⟩
        · exact inv.order w0 w0' ig0 jg0 hio hjo hlt hnd
        · exact hiw
      · rcases hclass _ _ hjg0 with ⟨hjo, _⟩ | ⟨rfl, rfl⟩
        · have := hgetidx _ _ hjo
          omega
        · omega

end OpenSkill

namespace OpenSkill

variable {α : Type} [LinearOrderedField α]

lemma pwInv_zero (gs : List (Game α)) :
    PWInv gs 0 ⟨[], [], fun _ => none⟩ := by
  constructor
  case len => rfl
  case entsEq => intro w; simp [waveUnion]
  case pair => intro w; simp
  case latestSome => intro e w h; cases h
  case latestMax => intro e w h; simp at h
  case flat => simp
  case order => intro w w' ig jg hig _ _ _; simp at hig

lemma partitionWaves_inv (gs : List (Game α)) :
    PWInv gs gs.length (gs.enum.foldl pwStep ⟨[], [], fun _ => none⟩) := by
  have key : ∀ m, m ≤ gs.length →
      PWInv gs m ((gs.enum.take m).foldl pwStep ⟨[], [], fun _ => none⟩) := by
    intro m
    induction m with
    | zero => intro _; exact pwInv_zero gs
    | succ m ih =>
      intro hm1
      have hm : m < gs.length := by omega
      rw [enum_take_succ gs m hm, List.foldl_append]
      exact pwStep_inv (ih (le_of_lt hm)) hm rfl
  have h := key gs.length (le_refl _)
  rw [List.take_of_length_le (by rw [List.enum_length])] at h
  exact h

lemma partitionWaves_pairwise (gs : List (Game α)) (w : ℕ) :
    ((partitionWaves gs).getD w []).Pairwise
      (fun a b => Disjoint (gameEnts a.2) (gameEnts b.2)) :=
  (partitionWaves_inv gs).pair w

lemma partitionWaves_order (gs : List (Game α)) (w w' : ℕ)
    (ig jg : ℕ × Game α) (hig : ig ∈ (partitionWaves gs).getD w [])
    (hjg : jg ∈ (partitionWaves gs).getD w' []) (hlt : ig.1 < jg.1)
    (hnd : ¬Disjoint (gameEnts ig.2) (gameEnts jg.2)) : w < w' :=
  (partitionWaves_inv gs).order w w' ig jg hig hjg hlt hnd

lemma partitionWaves_flatten (gs : List (Game α)) :
    (partitionWaves gs).flatten.Perm gs.enum := by
  have h := (partitionWaves_inv gs).flat
  rw [List.take_of_length_le (by rw [List.enum_length])] at h
  exact h

end OpenSkill

namespace OpenSkill

/-! ## Commutation of disjoint fast-path updates -/

variable {α : Type} [LinearOrderedField α]

lemma gameUpdates_fst_mem (K : Kern α) (C : Compute α) (tauSquared : α)
    (g : Game α) (st : St α) (p : String × Rating α)
    (hp : p ∈ gameUpdates K C tauSquared g st) : p.1 ∈ g.teams.flatten := by
  simp only [gameUpdates] at hp
  have h1 : p.1 ∈ (List.map (fun i => g.teams.getD i []) _).flatten :=
    (List.mem_zip hp).1
  obtain ⟨lst, hlst, hmem⟩ := List.mem_flatten.1 h1
  obtain ⟨i, _, hi⟩ := List.mem_map.1 hlst
  by_cases hlen : i < g.teams.length
  · rw [← hi] at hmem
    rw [List.getD_eq_getElem _ _ hlen] at hmem
    exact List.mem_flatten.2 ⟨g.teams[i], List.getElem_mem hlen, hmem⟩
  · rw [← hi, List.getD_eq_default _ _ (by omega)] at hmem
    simp at hmem

lemma gameUpdates_congr (K : Kern α) (C : Compute α) (tauSquared : α)
    (g : Game α) (st st' : St α)
    (h : ∀ e ∈ g.teams.flatten, st e = st' e) :
    gameUpdates K C tauSquared g st = gameUpdates K C tauSquared g st' := by
  have hteams : g.teams.map (fun tm => tm.map (fun eid =>
      (⟨(st eid).mu, K.sqrt ((st eid).sigma * (st eid).sigma + tauSquared)⟩ :
        Rating α))) =
      g.teams.map (fun tm => tm.map (fun eid =>
      (⟨(st' eid).mu, K.sqrt ((st' eid).sigma * (st' eid).sigma + tauSquared)⟩ :
        Rating α))) := by
    apply List.map_congr_left
    intro tm htm
    apply List.map_congr_left
    intro eid heid
    have he : st eid = st' eid :=
      h eid (List.mem_flatten.2 ⟨tm, htm, heid⟩)
    rw [he]
  simp only [gameUpdates]
  rw [hteams]

lemma applyWrites_frame (limitSigma : Bool) (ps : List (String × Rating α))
    (st : St α) (e : String) (he : e ∉ ps.map Prod.fst) :
    applyWrites limitSigma ps st e = st e := by
  induction ps generalizing st with
  | nil => rfl
  | cons p rest ih =>
    simp only [List.map_cons, List.mem_cons, not_or] at he
    show applyWrites limitSigma rest _ e = st e
    rw [ih _ (by exact he.2)]
    simp [he.1]

lemma applyWrites_congr (limitSigma : Bool) (ps : List (String × Rating α))
    (b b' : St α) (e : String)
    (hm : ∀ x ∈ ps.map Prod.fst, b x = b' x) (he : b e = b' e) :
    applyWrites limitSigma ps b e = applyWrites limitSigma ps b' e := by
  induction ps generalizing b b' with
  | nil => exact he
  | cons p rest ih =>
    show applyWrites limitSigma rest _ e = applyWrites limitSigma rest _ e
    apply ih
    · intro x hx
      by_cases hxp : x = p.1
      · subst hxp
        have hb := hm p.1 (by simp)
        simp [hb]
      · simp only [hxp, if_neg, not_false_iff]
        exact hm x (by simp [hx])
    · by_cases hep : e = p.1
      · subst hep
        have hb := hm p.1 (by simp)
        simp [hb]
      · simp only [hep, if_neg, not_false_iff]
        exact he

lemma rateGameFast_frame (K : Kern α) (C : Compute α) (tauSquared : α)
    (limitSigma : Bool) (g : Game α) (st : St α) (e : String)
    (he : e ∉ g.teams.flatten) :
    rateGameFast K C tauSquared limitSigma g st e = st e := by
  apply applyWrites_frame
  intro hmem
  obtain ⟨p, hp, hpe⟩ := List.mem_map.1 hmem
  exact he (hpe ▸ gameUpdates_fst_mem K C tauSquared g st p hp)

lemma rateGameFast_comm (K : Kern α) (C : Compute α) (tauSquared : α)
    (limitSigma : Bool) (g₁ g₂ : Game α) (st : St α)
    (hd : Disjoint (gameEnts g₁) (gameEnts g₂)) :
    rateGameFast K C tauSquared limitSigma g₂
      (rateGameFast K C tauSquared limitSigma g₁ st) =
    rateGameFast K C tauSquared limitSigma g₁
      (rateGameFast K C tauSquared limitSigma g₂ st) := by
  have hdis : ∀ x, x ∈ g₁.teams.flatten → x ∉ g₂.teams.flatten := by
    intro x h1 h2
    exact Finset.disjoint_left.1 hd (List.mem_toFinset.2 h1)
      (List.mem_toFinset.2 h2)
  have hW₁ : ∀ p ∈ gameUpdates K C tauSquared g₁ st, p.1 ∈ g₁.teams.flatten :=
    fun p hp => gameUpdates_fst_mem K C tauSquared g₁ st p hp
  have hW₂ : ∀ p ∈ gameUpdates K C tauSquared g₂ st, p.1 ∈ g₂.teams.flatten :=
    fun p hp => gameUpdates_fst_mem K C tauSquared g₂ st p hp
  have hfst₁ : ∀ x ∈ (gameUpdates K C tauSquared g₁ st).map Prod.fst,
      x ∈ g₁.teams.flatten := by
    intro x hx
    obtain ⟨p, hp, hpe⟩ := List.mem_map.1 hx
    exact hpe ▸ hW₁ p hp
  have hfst₂ : ∀ x ∈ (gameUpdates K C tauSquared g₂ st).map Prod.fst,
      x ∈ g₂.teams.flatten := by
    intro x hx
    obtain ⟨p, hp, hpe⟩ := List.mem_map.1 hx
    exact hpe ▸ hW₂ p hp
  -- the second game reads the same values whichever runs first
  have hu₂ : gameUpdates K C tauSquared g₂
      (rateGameFast K C tauSquared limitSigma g₁ st) =
      gameUpdates K C tauSquared g₂ st := by
    apply gameUpdates_congr
    intro e he
    exact rateGameFast_frame K C tauSquared limitSigma g₁ st e
      (fun h1 => hdis e h1 he)
  have hu₁ : gameUpdates K C tauSquared g₁
      (rateGameFast K C tauSquared limitSigma g₂ st) =
      gameUpdates K C tauSquared g₁ st := by
    apply gameUpdates_congr
    intro e he
    exact rateGameFast_frame K C tauSquared limitSigma g₂ st e
      (fun h2 => hdis e he h2)
  show applyWrites _ _ _ = applyWrites _ _ _
  rw [hu₂, hu₁]
  show applyWrites limitSigma (gameUpdates K C tauSquared g₂ st)
      (applyWrites limitSigma (gameUpdates K C tauSquared g₁ st) st) =
    applyWrites limitSigma (gameUpdates K C tauSquared g₁ st)
      (applyWrites limitSigma (gameUpdates K C tauSquared g₂ st) st)
  funext e
  by_cases he₁ : e ∈ (gameUpdates K C tauSquared g₁ st).map Prod.fst
  · have he₂ : e ∉ (gameUpdates K C tauSquared g₂ st).map Prod.fst :=
      fun h => hdis e (hfst₁ e he₁) (hfst₂ e h)
    rw [applyWrites_frame _ _ _ _ he₂]
    apply (applyWrites_congr _ _ _ _ _ ?_ ?_).symm
    · intro x hx
      exact applyWrites_frame _ _ _ _
        (fun h => hdis x (hfst₁ x hx) (hfst₂ x h))
    · exact applyWrites_frame _ _ _ _ he₂
  · by_cases he₂ : e ∈ (gameUpdates K C tauSquared g₂ st).map Prod.fst
    · rw [show applyWrites limitSigma (gameUpdates K C tauSquared g₁ st)
          (applyWrites limitSigma (gameUpdates K C tauSquared g₂ st) st) e =
          applyWrites limitSigma (gameUpdates K C tauSquared g₂ st) st e from
        applyWrites_frame _ _ _ _ he₁]
      apply applyWrites_congr
      · intro x hx
        exact applyWrites_frame _ _ _ _
          (fun h => hdis x (hfst₁ x h) (hfst₂ x hx))
      · exact applyWrites_frame _ _ _ _ he₁
    · rw [applyWrites_frame _ _ _ _ he₂, applyWrites_frame _ _ _ _ he₁,
        applyWrites_frame _ _ _ _ he₁, applyWrites_frame _ _ _ _ he₂]

end OpenSkill

namespace OpenSkill

variable {α : Type} [LinearOrderedField α]

lemma foldl_pull_front (K : Kern α) (C : Compute α) (tauSquared : α)
    (limitSigma : Bool) (L₁ : List (ℕ × Game α)) (p : ℕ × Game α) (st : St α)
    (hcomm : ∀ q ∈ L₁, Disjoint (gameEnts q.2) (gameEnts p.2)) :
    rateGameFast K C tauSquared limitSigma p.2
      (L₁.foldl (fun s ig => rateGameFast K C tauSquared limitSigma ig.2 s) st)
    = L₁.foldl (fun s ig => rateGameFast K C tauSquared limitSigma ig.2 s)
        (rateGameFast K C tauSquared limitSigma p.2 st) := by
  induction L₁ generalizing st with
  | nil => rfl
  | cons q L₁' ih =>
    show rateGameFast K C tauSquared limitSigma p.2
        (L₁'.foldl _ (rateGameFast K C tauSquared limitSigma q.2 st)) = _
    rw [ih _ (fun r hr => hcomm r (List.mem_cons_of_mem q hr))]
    show L₁'.foldl _ (rateGameFast K C tauSquared limitSigma p.2
      (rateGameFast K C tauSquared limitSigma q.2 st)) = _
    rw [rateGameFast_comm K C tauSquared limitSigma q.2 p.2 st
      (hcomm q (List.mem_cons_self q L₁'))]
    rfl

/-- Any dependency-respecting reordering of an index-sorted game list
folds to the same final state: if dependent games (sharing an entity)
always appear in increasing original-index order, the execution agrees
with the index-sorted one. -/
lemma foldl_exec_eq (K : Kern α) (C : Compute α) (tauSquared : α)
    (limitSigma : Bool) :
    ∀ (le : List (ℕ × Game α)) (L : List (ℕ × Game α)) (st : St α),
      le.Perm L →
      List.Pairwise (fun p q : ℕ × Game α => p.1 < q.1) L →
      List.Pairwise (fun p q : ℕ × Game α =>
        p.1 < q.1 ∨ Disjoint (gameEnts p.2) (gameEnts q.2)) le →
      le.foldl (fun s ig => rateGameFast K C tauSquared limitSigma ig.2 s) st
        = L.foldl (fun s ig => rateGameFast K C tauSquared limitSigma ig.2 s)
            st := by
  intro le
  induction le with
  | nil =>
    intro L st hp _ _
    rw [List.Perm.nil_eq hp]
  | cons p rest ih =>
    intro L st hp hPL hR
    have hpL : p ∈ L := hp.subset (List.mem_cons_self p rest)
    obtain ⟨L₁, L₂, rfl⟩ := List.append_of_mem hpL
    rw [List.pairwise_append] at hPL
    obtain ⟨hPL₁, hPL₂, hPLx⟩ := hPL
    rw [List.pairwise_cons] at hR
    obtain ⟨hRp, hRrest⟩ := hR
    have hL₁lt : ∀ q ∈ L₁, q.1 < p.1 := by
      intro q hq
      exact hPLx q hq p (List.mem_cons_self p L₂)
    have hcomm : ∀ q ∈ L₁, Disjoint (gameEnts q.2) (gameEnts p.2) := by
      intro q hq
      have hq2 : q ∈ p :: rest :=
        hp.symm.subset (List.mem_append.2 (Or.inl hq))
      rcases List.mem_cons.1 hq2 with rfl | hq3
      · exact absurd (hL₁lt q hq) (lt_irrefl _)
      · rcases hRp q hq3 with hlt | hd
        · exact absurd hlt (by have := hL₁lt q hq; omega)
        · exact hd.symm
    have hperm' : rest.Perm (L₁ ++ L₂) := by
      have h1 : (p :: rest).Perm (p :: (L₁ ++ L₂)) :=
        hp.trans List.perm_middle
      exact h1.cons_inv
    have hPL' : List.Pairwise (fun p q : ℕ × Game α => p.1 < q.1)
        (L₁ ++ L₂) := by
      refine List.Pairwise.sublist ?_ (by
        rw [List.pairwise_append]
        exact ⟨hPL₁, hPL₂, hPLx⟩)
      exact (List.sublist_cons_self p L₂).append_left L₁
    have step1 : (L₁ ++ p :: L₂).foldl
        (fun s ig => rateGameFast K C tauSquared limitSigma ig.2 s) st =
        (L₁ ++ L₂).foldl
          (fun s ig => rateGameFast K C tauSquared limitSigma ig.2 s)
          (rateGameFast K C tauSquared limitSigma p.2 st) := by
      rw [List.foldl_append, List.foldl_append]
      show (L₂.foldl _ (rateGameFast K C tauSquared limitSigma p.2
        (L₁.foldl _ st))) = _
      rw [foldl_pull_front K C tauSquared limitSigma L₁ p st hcomm]
    rw [step1]
    show rest.foldl _ (rateGameFast K C tauSquared limitSigma p.2 st) = _
    exact ih (L₁ ++ L₂) (rateGameFast K C tauSquared limitSigma p.2 st)
      hperm' hPL' hRrest

lemma runWaves_eq_foldl_flatten (K : Kern α) (C : Compute α) (tauSquared : α)
    (limitSigma : Bool) (ws : List (List (ℕ × Game α))) (st : St α) :
    runWaves K C tauSquared limitSigma ws st =
      ws.flatten.foldl
        (fun s ig => rateGameFast K C tauSquared limitSigma ig.2 s) st := by
  induction ws generalizing st with
  | nil => rfl
  | cons w ws' ih =>
    show runWaves K C tauSquared limitSigma ws' _ = _
    rw [ih, List.flatten_cons, List.foldl_append]

lemma rateSeq_eq_foldl_enum (K : Kern α) (C : Compute α) (tauSquared : α)
    (limitSigma : Bool) (gs : List (Game α)) (st : St α) :
    rateSeq K C tauSquared limitSigma gs st =
      gs.enum.foldl
        (fun s ig => rateGameFast K C tauSquared limitSigma ig.2 s) st := by
  unfold rateSeq
  conv_lhs => rw [← List.enum_map_snd gs]
  rw [List.foldl_map]

lemma waveShuffle_flatten_perm {ws es : List (List (ℕ × Game α))}
    (h : WaveShuffle ws es) : es.flatten.Perm ws.flatten := by
  obtain ⟨hlen, hperm⟩ := h
  induction ws generalizing es with
  | nil =>
    have : es = [] := List.length_eq_zero.1 hlen
    subst this
    rfl
  | cons w ws' ih =>
    cases es with
    | nil => simp at hlen
    | cons e es' =>
      have h0 := hperm 0 (by simp)
      simp only [List.getD_cons_zero] at h0
      have htail : es'.length = ws'.length := by simpa using hlen
      have hptail : ∀ i < ws'.length, (es'.getD i []).Perm (ws'.getD i []) := by
        intro i hi
        have := hperm (i + 1) (by simp; omega)
        simpa using this
      rw [List.flatten_cons, List.flatten_cons]
      exact h0.append (ih htail hptail)

end OpenSkill

namespace OpenSkill

variable {α : Type} [LinearOrderedField α]

lemma partitionWaves_keys_nodup (gs : List (Game α)) :
    ((partitionWaves gs).flatten.map Prod.fst).Nodup := by
  have h1 := (partitionWaves_flatten gs).map Prod.fst
  rw [List.enum_map_fst] at h1
  exact h1.nodup_iff.2 (List.nodup_range gs.length)

lemma partitionWaves_cross (gs : List (Game α)) :
    List.Pairwise (fun w₁ w₂ => ∀ x ∈ w₁, ∀ y ∈ w₂,
      x.1 < y.1 ∨ Disjoint (gameEnts x.2) (gameEnts y.2))
      (partitionWaves gs) := by
  have hkeys : List.Pairwise (fun p q : ℕ × Game α => p.1 ≠ q.1)
      (partitionWaves gs).flatten :=
    List.pairwise_map.mp (partitionWaves_keys_nodup gs)
  rw [List.pairwise_flatten] at hkeys
  have hkcross := hkeys.2
  rw [List.pairwise_iff_getElem] at hkcross ⊢
  intro i j hi hj hij
  intro x hx y hy
  have hne : x.1 ≠ y.1 := hkcross i j hi hj hij x hx y hy
  by_cases hd : Disjoint (gameEnts x.2) (gameEnts y.2)
  · exact Or.inr hd
  · left
    rcases lt_trichotomy x.1 y.1 with h | h | h
    · exact h
    · exact absurd h hne
    · exfalso
      have hx' : x ∈ (partitionWaves gs).getD i [] := by
        rw [List.getD_eq_getElem _ _ hi]
        exact hx
      have hy' : y ∈ (partitionWaves gs).getD j [] := by
        rw [List.getD_eq_getElem _ _ hj]
        exact hy
      have hnd' : ¬Disjoint (gameEnts y.2) (gameEnts x.2) := by
        intro h2
        exact hd h2.symm
      have := partitionWaves_order gs j i y x hy' hx' h hnd'
      omega

lemma exec_flatten_pairwise (gs : List (Game α))
    (es : List (List (ℕ × Game α)))
    (h : WaveShuffle (partitionWaves gs) es) :
    List.Pairwise (fun p q : ℕ × Game α =>
      p.1 < q.1 ∨ Disjoint (gameEnts p.2) (gameEnts q.2)) es.flatten := by
  obtain ⟨hlen, hperm⟩ := h
  rw [List.pairwise_flatten]
  constructor
  · intro wv hwv
    obtain ⟨i, hi, hget⟩ := List.mem_iff_getElem.1 hwv
    have hi' : i < (partitionWaves gs).length := by omega
    have hp : wv.Perm ((partitionWaves gs).getD i []) := by
      rw [← hget, ← List.getD_eq_getElem es [] hi]
      exact hperm i hi'
    have hpw := (hp.pairwise_iff (fun hab => hab.symm)).2
      (partitionWaves_pairwise gs i)
    exact hpw.imp (fun hab => Or.inr hab)
  · have hcross := partitionWaves_cross gs
    rw [List.pairwise_iff_getElem] at hcross ⊢
    intro i j hi hj hij x hx y hy
    have hi' : i < (partitionWaves gs).length := by omega
    have hj' : j < (partitionWaves gs).length := by omega
    have hx' : x ∈ (partitionWaves gs).getD i [] :=
      (hperm i hi').subset (by rw [List.getD_eq_getElem es [] hi]; exact hx)
    have hy' : y ∈ (partitionWaves gs).getD j [] :=
      (hperm j hj').subset (by rw [List.getD_eq_getElem es [] hj]; exact hy)
    rw [List.getD_eq_getElem _ _ hi'] at hx'
    rw [List.getD_eq_getElem _ _ hj'] at hy'
    exact hcross i j hi' hj' hij x hx' y hy'

/-- Core reproducibility fact: executing the partition's waves in
order, each wave internally permuted arbitrarily, is the sequential
input-order execution. -/
lemma runWaves_shuffle_eq (K : Kern α) (C : Compute α) (tauSquared : α)
    (limitSigma : Bool) (gs : List (Game α))
    (es : List (List (ℕ × Game α))) (st : St α)
    (h : WaveShuffle (partitionWaves gs) es) :
    runWaves K C tauSquared limitSigma es st =
      rateSeq K C tauSquared limitSigma gs st := by
  rw [runWaves_eq_foldl_flatten, rateSeq_eq_foldl_enum]
  apply foldl_exec_eq
  · exact (waveShuffle_flatten_perm h).trans (partitionWaves_flatten gs)
  · have h1 : List.Pairwise (· < ·) (gs.enum.map Prod.fst) := by
      rw [List.enum_map_fst]
      exact List.pairwise_lt_range gs.length
    exact List.pairwise_map.mp h1
  · exact exec_flatten_pairwise gs es h

end OpenSkill

namespace OpenSkill

/-! ## Pairwise-sum machinery for the prediction queries -/

variable {α : Type} [LinearOrderedField α]

lemma chunksOf_flatten {β : Type} (k : ℕ) (l : List β) :
    (chunksOf k l).flatten = l := by
  have key : ∀ (m : ℕ) (l : List β), l.length ≤ m →
      (chunksOf k l).flatten = l := by
    intro m
    induction m with
    | zero =>
      intro l hl
      have : l = [] := List.eq_nil_of_length_eq_zero (by omega)
      subst this
      simp [chunksOf]
    | succ m ih =>
      intro l hl
      cases l with
      | nil => simp [chunksOf]
      | cons x xs =>
        rw [chunksOf, List.flatten_cons,
          ih (xs.drop (k - 1)) (by
            have := (List.drop_sublist (k - 1) xs).length_le
            simp only [List.length_cons] at hl
            omega)]
        simp [List.take_append_drop]
  exact key l.length l (le_refl _)

lemma mem_pairIdx {n i j : ℕ} : (i, j) ∈ pairIdx n ↔ i < n ∧ j < n ∧ j ≠ i := by
  simp only [pairIdx, List.mem_flatMap, List.mem_map, List.mem_filter,
    List.mem_range, decide_eq_true_eq]
  constructor
  · rintro ⟨i', hi', j', ⟨⟨hj', hne⟩, heq⟩⟩
    cases heq
    exact ⟨hi', hj', hne⟩
  · rintro ⟨hi, hj, hne⟩
    exact ⟨i, hi, j, ⟨⟨hj, hne⟩, rfl⟩⟩

lemma pairIdx_nodup (n : ℕ) : (pairIdx n).Nodup := by
  rw [pairIdx, List.nodup_flatMap]
  refine ⟨?_, ?_⟩
  · intro i _
    refine List.Nodup.map ?_ ((List.nodup_range n).filter _)
    intro a b hab
    exact congrArg Prod.snd hab
  · refine List.Pairwise.imp ?_ ((List.nodup_range n).imp (fun hab => hab))
    intro a b hab p hpa hpb
    obtain ⟨ja, _, rfl⟩ := List.mem_map.1 hpa
    obtain ⟨jb, _, hjb⟩ := List.mem_map.1 hpb
    exact hab (congrArg Prod.fst hjb).symm

lemma pairIdx_swap_perm (n : ℕ) :
    ((pairIdx n).map Prod.swap).Perm (pairIdx n) := by
  rw [List.perm_ext_iff_of_nodup
    (List.Nodup.map Prod.swap_injective (pairIdx_nodup n)) (pairIdx_nodup n)]
  rintro ⟨i, j⟩
  constructor
  · intro h
    obtain ⟨⟨a, b⟩, hab, heq⟩ := List.mem_map.1 h
    have ha : a = j := by
      have := congrArg Prod.snd heq
      simpa using this
    have hb : b = i := by
      have := congrArg Prod.fst heq
      simpa using this
    subst ha
    subst hb
    obtain ⟨ha2, hb2, hne⟩ := mem_pairIdx.1 hab
    exact mem_pairIdx.2 ⟨hb2, ha2, fun h => hne h.symm⟩
  · intro h
    obtain ⟨hi, hj, hne⟩ := mem_pairIdx.1 h
    refine List.mem_map.2 ⟨(j, i), mem_pairIdx.2 ⟨hj, hi, fun h => hne h.symm⟩,
      rfl⟩

lemma sum_map_swap (n : ℕ) (f : ℕ × ℕ → α) :
    ((pairIdx n).map (fun p => f p.swap)).sum = ((pairIdx n).map f).sum := by
  have h := ((pairIdx_swap_perm n).map f).sum_eq
  rw [List.map_map] at h
  exact h

lemma sum_map_add_eq {β : Type} (l : List β) (f g : β → α) :
    (l.map f).sum + (l.map g).sum = (l.map (fun x => f x + g x)).sum := by
  induction l with
  | nil => simp
  | cons x xs ih =>
    simp only [List.map_cons, List.sum_cons, ← ih]
    ring

lemma pairIdx_length (n : ℕ) : (pairIdx n).length = n * (n - 1) := by
  rw [pairIdx, List.length_flatMap]
  have hlen : ∀ i ∈ List.range n,
      (List.length ∘ fun i =>
        ((List.range n).filter (fun j => j ≠ i)).map (fun j => (i, j))) i =
      n - 1 := by
    intro i hi
    simp only [Function.comp_apply, List.length_map]
    have hf : (List.range n).filter (fun j => j ≠ i) =
        (List.range n).filter (fun j => j != i) := by
      apply List.filter_congr
      intro j _
      by_cases h : j = i <;> simp [h]
    rw [hf, ← (List.nodup_range n).erase_eq_filter i]
    rw [List.length_erase_of_mem (List.mem_range.2 (List.mem_range.1 hi))]
    simp
  rw [List.map_congr_left hlen]
  rw [List.map_const']
  rw [List.sum_replicate, List.length_range, smul_eq_mul]

lemma sum_pair_total (n : ℕ) (f : ℕ × ℕ → α) (c : α)
    (h : ∀ p ∈ pairIdx n, f p + f p.swap = c) :
    2 * ((pairIdx n).map f).sum = (n * (n - 1) : ℕ) * c := by
  have h1 := sum_map_add_eq (pairIdx n) f (fun p => f p.swap)
  rw [sum_map_swap n f] at h1
  have h2 : ((pairIdx n).map (fun p => f p + f p.swap)).sum =
      ((n * (n - 1) : ℕ) : α) * c := by
    rw [List.map_congr_left (fun p hp => h p hp), List.map_const',
      List.sum_replicate, pairIdx_length, nsmul_eq_mul]
  rw [two_mul, h1, h2]

lemma sum_map_div (l : List α) (d : α) :
    (l.map (fun x => x / d)).sum = l.sum / d := by
  induction l with
  | nil => simp
  | cons x xs ih => simp [List.sum_cons, ih, add_div]

lemma sum_pair_nonneg (n : ℕ) (f : ℕ × ℕ → α)
    (h : ∀ p ∈ pairIdx n, 0 ≤ f p + f p.swap) :
    0 ≤ ((pairIdx n).map f).sum := by
  have h1 := sum_map_add_eq (pairIdx n) f (fun p => f p.swap)
  rw [sum_map_swap n f] at h1
  have h2 : 0 ≤ ((pairIdx n).map (fun p => f p + f p.swap)).sum := by
    apply List.sum_nonneg
    intro x hx
    obtain ⟨p, hp, rfl⟩ := List.mem_map.1 hx
    exact h p hp
  nlinarith [h2, h1]

end OpenSkill

namespace OpenSkill

variable {α : Type} [LinearOrderedField α]

lemma chunks_div_sum (k : ℕ) (l : List α) (d : α) :
    ((chunksOf k l).map (fun c => c.sum / d)).sum = l.sum / d := by
  have h1 : (chunksOf k l).map (fun c => c.sum / d) =
      ((chunksOf k l).map List.sum).map (fun x => x / d) := by
    rw [List.map_map]
    rfl
  rw [h1, sum_map_div, ← List.sum_flatten, chunksOf_flatten]

lemma predictWin_sum (K : Kern α) (M : Model α)
    (teams : List (List (Rating α)))
    (hphi : ∀ x, K.phiMajor x + K.phiMajor (-x) = 1)
    (hn : 2 ≤ teams.length) :
    (predictWin K M teams).sum = 1 := by
  by_cases h2 : teams.length = 2
  · simp only [predictWin, h2, if_pos, List.sum_cons, List.sum_nil]
    ring
  · have h3 : 3 ≤ teams.length := by omega
    simp only [predictWin, h2, if_neg, not_false_iff, ite_false]
    rw [chunks_div_sum]
    have hpoint : ∀ p ∈ pairIdx teams.length,
        (fun ij : ℕ × ℕ =>
          K.phiMajor
            (((headRating (teams.getD ij.1 [])).mu -
                (headRating (teams.getD ij.2 [])).mu) /
              K.sqrt ((teams.length : α) * M.beta ^ 2 +
                (headRating (teams.getD ij.1 [])).sigma ^ 2 +
                (headRating (teams.getD ij.2 [])).sigma ^ 2))) p +
        (fun ij : ℕ × ℕ =>
          K.phiMajor
            (((headRating (teams.getD ij.1 [])).mu -
                (headRating (teams.getD ij.2 [])).mu) /
              K.sqrt ((teams.length : α) * M.beta ^ 2 +
                (headRating (teams.getD ij.1 [])).sigma ^ 2 +
                (headRating (teams.getD ij.2 [])).sigma ^ 2))) p.swap = 1 := by
      rintro ⟨i, j⟩ _
      have key : ∀ a b : Rating α,
          K.phiMajor ((a.mu - b.mu) / K.sqrt ((teams.length : α) * M.beta ^ 2 +
            a.sigma ^ 2 + b.sigma ^ 2)) +
          K.phiMajor ((b.mu - a.mu) / K.sqrt ((teams.length : α) * M.beta ^ 2 +
            b.sigma ^ 2 + a.sigma ^ 2)) = 1 := by
        intro a b
        have hS : (teams.length : α) * M.beta ^ 2 + b.sigma ^ 2 + a.sigma ^ 2 =
            (teams.length : α) * M.beta ^ 2 + a.sigma ^ 2 + b.sigma ^ 2 := by
          ring
        rw [hS]
        have hA : b.mu - a.mu = -(a.mu - b.mu) := by ring
        rw [hA, neg_div]
        exact hphi _
      exact key (headRating (teams.getD i [])) (headRating (teams.getD j []))
    have htot := sum_pair_total teams.length _ 1 hpoint
    rw [mul_one] at htot
    have hpos : (0 : α) < ((teams.length * (teams.length - 1) : ℕ) : α) := by
      have : 0 < teams.length * (teams.length - 1) :=
        Nat.mul_pos (by omega) (by omega)
      exact_mod_cast Nat.cast_pos.2 this
    rw [div_eq_one_iff_eq (by positivity)]
    linarith [htot]

end OpenSkill


namespace OpenSkill

variable {α : Type} [LinearOrderedField α]

lemma sum_pair_congr (n : ℕ) (f g : ℕ × ℕ → α)
    (h : ∀ p ∈ pairIdx n, f p + f p.swap = g p + g p.swap) :
    ((pairIdx n).map f).sum = ((pairIdx n).map g).sum := by
  have hf := sum_map_add_eq (pairIdx n) f (fun p => f p.swap)
  rw [sum_map_swap n f] at hf
  have hg := sum_map_add_eq (pairIdx n) g (fun p => g p.swap)
  rw [sum_map_swap n g] at hg
  have hmap : (pairIdx n).map (fun p => f p + f p.swap) =
      (pairIdx n).map (fun p => g p + g p.swap) := List.map_congr_left h
  have hkey : ((pairIdx n).map f).sum + ((pairIdx n).map f).sum =
      ((pairIdx n).map g).sum + ((pairIdx n).map g).sum := by
    rw [hf, hmap, ← hg]
  linarith

lemma draw_sum_core (n : ℕ) (phi sq : α → α) (dm bsq : α) (m s : ℕ → α)
    (hmono : Monotone phi) (hsq : ∀ x, 0 ≤ sq x) (hdm : 0 ≤ dm) :
    |((pairIdx n).map (fun ij =>
        phi ((dm - m ij.1 + m ij.2) / sq (bsq + s ij.1 + s ij.2)) -
        phi ((m ij.1 - m ij.2 - dm) / sq (bsq + s ij.1 + s ij.2)))).sum| =
    ((pairIdx n).map (fun ij =>
        phi ((dm - (m ij.1 - m ij.2)) / sq (bsq + s ij.1 + s ij.2)) -
        phi ((-dm - (m ij.1 - m ij.2)) / sq (bsq + s ij.1 + s ij.2)))).sum := by
  have hsum := sum_pair_congr n
    (fun ij : ℕ × ℕ =>
        phi ((dm - m ij.1 + m ij.2) / sq (bsq + s ij.1 + s ij.2)) -
        phi ((m ij.1 - m ij.2 - dm) / sq (bsq + s ij.1 + s ij.2)))
    (fun ij : ℕ × ℕ =>
        phi ((dm - (m ij.1 - m ij.2)) / sq (bsq + s ij.1 + s ij.2)) -
        phi ((-dm - (m ij.1 - m ij.2)) / sq (bsq + s ij.1 + s ij.2)))
    (by
      rintro ⟨i, j⟩ _
      simp only [Prod.swap_prod_mk]
      have hD : bsq + s j + s i = bsq + s i + s j := by ring
      rw [hD]
      have e1 : dm - (m i - m j) = dm - m i + m j := by ring
      have e2 : -dm - (m i - m j) = m j - m i - dm := by ring
      have e3 : dm - (m j - m i) = dm - m j + m i := by ring
      have e4 : -dm - (m j - m i) = m i - m j - dm := by ring
      rw [e1, e2, e3, e4]
      ring)
  rw [hsum]
  apply abs_of_nonneg
  apply List.sum_nonneg
  intro x hx
  obtain ⟨p, _, rfl⟩ := List.mem_map.1 hx
  rcases eq_or_lt_of_le (hsq (bsq + s p.1 + s p.2)) with h0 | h0
  · rw [← h0]
    simp
  · have harg : (-dm - (m p.1 - m p.2)) / sq (bsq + s p.1 + s p.2) ≤
        (dm - (m p.1 - m p.2)) / sq (bsq + s p.1 + s p.2) := by
      apply div_le_div_of_nonneg_right ?_ (le_of_lt h0)
      linarith
    exact sub_nonneg.2 (hmono harg)

lemma predictDraw_eq_amended (K : Kern α) (M : Model α)
    (teams : List (List (Rating α)))
    (hmono : Monotone K.phiMajor)
    (hsq : ∀ x, 0 ≤ K.sqrt x)
    (hbeta : 0 ≤ M.beta)
    (hinv : ∀ x, 1 / 2 ≤ x → 0 ≤ K.phiMajorInverse x) :
    predictDraw K M teams = predictDrawAmended K M teams := by
  simp only [predictDraw, predictDrawAmended]
  congr 1
  have hdm : 0 ≤ K.sqrt ((((teams.map List.length).sum : ℕ) : α)) * M.beta *
      K.phiMajorInverse ((1 + 1 / ((((teams.map List.length).sum : ℕ) : α))) / 2) := by
    apply mul_nonneg (mul_nonneg (hsq _) hbeta)
    apply hinv
    have h1 : (0 : α) ≤ 1 / ((((teams.map List.length).sum : ℕ) : α)) := by
      apply div_nonneg zero_le_one (Nat.cast_nonneg _)
    linarith
  exact draw_sum_core teams.length K.phiMajor K.sqrt _ _
    (fun i : ℕ => (headRating (teams.getD i [])).mu)
    (fun i : ℕ => (headRating (teams.getD i [])).sigma ^ 2)
    hmono hsq hdm

end OpenSkill

namespace OpenSkill

/-! ## Properties of `_arg_sort` and `_rank_data` -/

variable {β : Type} [LinearOrder β]

lemma pairLe_trans (a b c : β × ℕ) (h₁ : pairLe a b) (h₂ : pairLe b c) :
    pairLe a c := by
  simp only [pairLe, decide_eq_true_eq] at *
  rcases h₁ with h | ⟨he, hi⟩ <;> rcases h₂ with h' | ⟨he', hi'⟩
  · exact Or.inl (lt_trans h h')
  · exact Or.inl (lt_of_lt_of_le h (le_of_eq he'))
  · exact Or.inl (lt_of_le_of_lt (le_of_eq he) h')
  · exact Or.inr ⟨he.trans he', le_trans hi hi'⟩

lemma pairLe_total (a b : β × ℕ) : pairLe a b || pairLe b a := by
  simp only [pairLe, Bool.or_eq_true, decide_eq_true_eq]
  rcases lt_trichotomy a.1 b.1 with h | h | h
  · exact Or.inl (Or.inl h)
  · rcases le_total a.2 b.2 with h2 | h2
    · exact Or.inl (Or.inr ⟨h, h2⟩)
    · exact Or.inr (Or.inr ⟨h.symm, h2⟩)
  · exact Or.inr (Or.inl h)

lemma argSortPairs_perm (v : List β) :
    (argSortPairs v).Perm (v.enum.map (fun p => (p.2, p.1))) :=
  List.mergeSort_perm _ _

lemma argSortPairs_sorted (v : List β) :
    (argSortPairs v).Pairwise (fun a b => a.1 ≤ b.1) := by
  have hs := @List.sorted_mergeSort _ pairLe
    (fun a b c h₁ h₂ => pairLe_trans a b c h₁ h₂)
    (fun a b => pairLe_total a b)
    (v.enum.map (fun p => (p.2, p.1)))
  refine hs.imp (fun h => ?_)
  simp only [pairLe, decide_eq_true_eq] at h
  rcases h with h | ⟨he, _⟩
  · exact le_of_lt h
  · exact le_of_eq he

lemma dropWhile_val_gt (v : β) (l : List (β × ℕ))
    (hge : ∀ q ∈ l, v ≤ q.1)
    (hsort : l.Pairwise (fun a b : β × ℕ => a.1 ≤ b.1)) :
    ∀ p ∈ l.dropWhile (fun q => q.1 = v), v < p.1 := by
  induction l with
  | nil => intro p hp; simp [List.dropWhile] at hp
  | cons x xs ih =>
    intro p hp
    rw [List.dropWhile_cons] at hp
    by_cases hx : x.1 = v
    · simp only [hx, decide_true_eq_true, if_pos] at hp
      exact ih (fun q hq => hge q (List.mem_cons_of_mem _ hq))
        (List.Pairwise.sublist (List.sublist_cons_self _ _) hsort) p hp
    · rw [if_neg (by simpa using hx)] at hp
      have hvx : v < x.1 :=
        lt_of_le_of_ne (hge x (List.mem_cons_self _ _)) (Ne.symm hx)
      rcases List.mem_cons.1 hp with rfl | hp'
      · exact hvx
      · exact lt_of_lt_of_le hvx ((List.pairwise_cons.1 hsort).1 p hp')

end OpenSkill

namespace OpenSkill

variable {β : Type} [LinearOrder β]

lemma rankRuns_keys_aux [DecidableEq β] :
    ∀ (n : ℕ) (L : List (β × ℕ)), L.length ≤ n → ∀ pos : ℕ,
      (rankRuns L pos).map Prod.fst = L.map Prod.snd := by
  intro n
  induction n with
  | zero =>
    intro L hL pos
    have h0 : L = [] := List.eq_nil_of_length_eq_zero (Nat.le_zero.1 hL)
    subst h0
    simp [rankRuns]
  | succ n ih =>
    intro L hL pos
    match L with
    | [] => simp [rankRuns]
    | (v, i) :: rest =>
      rw [rankRuns]
      simp only [List.map_append, List.map_map, List.map_cons]
      have hlen : (rest.dropWhile (fun p => p.1 = v)).length ≤ n := by
        have h1 := (List.dropWhile_sublist
          (l := rest) (p := fun p => decide (p.1 = v))).length_le
        simp only [List.length_cons] at hL
        omega
      rw [ih _ hlen]
      have hsplit : rest.takeWhile (fun p => p.1 = v) ++
          rest.dropWhile (fun p => p.1 = v) = rest :=
        List.takeWhile_append_dropWhile _ _
      calc ((v, i) :: rest.takeWhile (fun p => p.1 = v)).map
              (Prod.fst ∘ fun p => (p.2, pos + 1)) ++
            (rest.dropWhile (fun p => p.1 = v)).map Prod.snd
          = ((v, i) :: rest.takeWhile (fun p => p.1 = v)).map Prod.snd ++
            (rest.dropWhile (fun p => p.1 = v)).map Prod.snd := by
            congr 1
        _ = ((v, i) :: (rest.takeWhile (fun p => p.1 = v) ++
              rest.dropWhile (fun p => p.1 = v))).map Prod.snd := by
            simp only [List.map_cons, List.map_append, List.cons_append]
        _ = ((v, i) :: rest).map Prod.snd := by rw [hsplit]

lemma rankRuns_keys [DecidableEq β] (L : List (β × ℕ)) (pos : ℕ) :
    (rankRuns L pos).map Prod.fst = L.map Prod.snd :=
  rankRuns_keys_aux L.length L le_rfl pos

end OpenSkill

namespace OpenSkill

variable {β : Type} [LinearOrder β]

lemma rankRuns_mem_aux :
    ∀ (n : ℕ) (L : List (β × ℕ)), L.length ≤ n →
      L.Pairwise (fun a b : β × ℕ => a.1 ≤ b.1) →
      ∀ (pos : ℕ) (p : β × ℕ), p ∈ L →
        (p.2, pos + 1 + (L.filter (fun q => q.1 < p.1)).length) ∈
          rankRuns L pos := by
  intro n
  induction n with
  | zero =>
    intro L hL _ pos p hp
    have h0 : L = [] := List.eq_nil_of_length_eq_zero (Nat.le_zero.1 hL)
    subst h0
    cases hp
  | succ n ih =>
    intro L hL hs pos p hp
    match L with
    | [] => cases hp
    | (v, i) :: rest =>
      obtain ⟨hhead, hrest⟩ := List.pairwise_cons.1 hs
      have hsplit : rest.takeWhile (fun q => q.1 = v) ++
          rest.dropWhile (fun q => q.1 = v) = rest :=
        List.takeWhile_append_dropWhile _ _
      by_cases hmem : p ∈ (v, i) :: rest.takeWhile (fun q => q.1 = v)
      · have hpv : p.1 = v := by
          rcases List.mem_cons.1 hmem with rfl | hrun
          · rfl
          · have hb := List.mem_takeWhile_imp hrun
            exact of_decide_eq_true hb
        have hf : ((v, i) :: rest).filter (fun q => q.1 < p.1) = [] := by
          rw [List.filter_eq_nil_iff]
          intro q hq
          rcases List.mem_cons.1 hq with rfl | hq'
          · simp [hpv]
          · have := hhead q hq'
            simp only [decide_eq_true_eq]
            rw [hpv]
            exact not_lt_of_le this
        rw [hf]
        simp only [List.length_nil, Nat.add_zero]
        rw [rankRuns]
        exact List.mem_append_left _ (List.mem_map.2 ⟨p, hmem, rfl⟩)
      · have hp' : p ∈ rest.dropWhile (fun q => q.1 = v) := by
          rcases List.mem_cons.1 hp with rfl | hq'
          · exact absurd (List.mem_cons_self _ _) hmem
          · rw [← hsplit] at hq'
            rcases List.mem_append.1 hq' with h | h
            · exact absurd (List.mem_cons_of_mem _ h) hmem
            · exact h
        have hvp : v < p.1 :=
          dropWhile_val_gt v rest (fun q hq => hhead q hq) hrest p hp'
        have hsub : (rest.dropWhile (fun q => q.1 = v)).Sublist rest :=
          List.dropWhile_sublist _
        have hlen' : (rest.dropWhile (fun q => q.1 = v)).length ≤ n := by
          have h1 := hsub.length_le
          simp only [List.length_cons] at hL
          omega
        have hsort' : (rest.dropWhile (fun q => q.1 = v)).Pairwise
            (fun a b : β × ℕ => a.1 ≤ b.1) :=
          List.Pairwise.sublist hsub hrest
        have hih := ih _ hlen' hsort'
          (pos + 1 + (rest.takeWhile (fun q => q.1 = v)).length) p hp'
        have hrunf : (rest.takeWhile (fun q => q.1 = v)).filter
            (fun q => q.1 < p.1) = rest.takeWhile (fun q => q.1 = v) := by
          rw [List.filter_eq_self]
          intro q hq
          have hqv : q.1 = v := by
            have hb := List.mem_takeWhile_imp hq
            exact of_decide_eq_true hb
          simp only [decide_eq_true_eq]
          rw [hqv]
          exact hvp
        have hcount : (((v, i) :: rest).filter
            (fun q => q.1 < p.1)).length =
            1 + (rest.takeWhile (fun q => q.1 = v)).length +
            ((rest.dropWhile (fun q => q.1 = v)).filter
              (fun q => q.1 < p.1)).length := by
          have h2 : rest.filter (fun q => q.1 < p.1) =
              (rest.takeWhile (fun q => q.1 = v)).filter
                (fun q => q.1 < p.1) ++
              (rest.dropWhile (fun q => q.1 = v)).filter
                (fun q => q.1 < p.1) := by
            conv_lhs => rw [← hsplit]
            rw [List.filter_append]
          rw [List.filter_cons_of_pos (by simpa using hvp), h2, hrunf]
          simp only [List.length_cons, List.length_append]
          omega
        have hx : pos + 1 + (((v, i) :: rest).filter
            (fun q => q.1 < p.1)).length =
            pos + 1 + (rest.takeWhile (fun q => q.1 = v)).length + 1 +
            ((rest.dropWhile (fun q => q.1 = v)).filter
              (fun q => q.1 < p.1)).length := by
          omega
        rw [hx, rankRuns]
        exact List.mem_append_right _ hih

lemma rankRuns_mem (L : List (β × ℕ))
    (hs : L.Pairwise (fun a b : β × ℕ => a.1 ≤ b.1))
    (pos : ℕ) (p : β × ℕ) (hp : p ∈ L) :
    (p.2, pos + 1 + (L.filter (fun q => q.1 < p.1)).length) ∈
      rankRuns L pos :=
  rankRuns_mem_aux L.length L le_rfl hs pos p hp

end OpenSkill

namespace OpenSkill

variable {β : Type} [LinearOrder β]

lemma lookup_eq_some : ∀ (l : List (ℕ × ℕ)) (i r : ℕ),
    (l.map Prod.fst).Nodup → (i, r) ∈ l → l.lookup i = some r := by
  intro l
  induction l with
  | nil => intro i r _ h; cases h
  | cons x t ih =>
    intro i r hnd h
    obtain ⟨k, b⟩ := x
    simp only [List.map_cons, List.nodup_cons] at hnd
    rcases List.mem_cons.1 h with he | hm
    · cases he
      simp [List.lookup]
    · have hne : ¬ i = k := by
        intro hik
        subst hik
        exact hnd.1 (List.mem_map.2 ⟨(i, r), hm, rfl⟩)
      have hbeq : (i == k) = false := beq_eq_false_iff_ne.2 hne
      simp only [List.lookup, hbeq]
      exact ih i r hnd.2 hm

lemma argSortPairs_length (v : List β) :
    (argSortPairs v).length = v.length := by
  rw [(argSortPairs_perm v).length_eq, List.length_map, List.enum_length]

lemma argSortPairs_keys_nodup (v : List β) :
    (((argSortPairs v).map Prod.snd)).Nodup := by
  have hp := (argSortPairs_perm v).map Prod.snd
  have he : (v.enum.map (fun p : ℕ × β => (p.2, p.1))).map Prod.snd =
      v.enum.map Prod.fst := by
    rw [List.map_map]
    rfl
  rw [he, List.enum_map_fst] at hp
  exact hp.nodup_iff.2 (List.nodup_range _)

lemma mem_argSortPairs (v : List β) (i : ℕ) (hi : i < v.length) :
    (v[i], i) ∈ argSortPairs v := by
  rw [(argSortPairs_perm v).mem_iff]
  refine List.mem_map.2 ⟨(i, v[i]), ?_, rfl⟩
  have hlen : i < v.enum.length := by
    rw [List.enum_length]
    exact hi
  have he : v.enum[i] = (i, v[i]) := by
    simp [List.getElem_enum]
  rw [← he]
  exact List.getElem_mem hlen

lemma argSortPairs_filter_length (v : List β) (x : β) :
    ((argSortPairs v).filter (fun q => q.1 < x)).length =
      (v.filter (fun q => q < x)).length := by
  have hp := ((argSortPairs_perm v).filter (fun q => q.1 < x)).length_eq
  rw [hp]
  have h1 : (v.enum.map (fun p : ℕ × β => (p.2, p.1))).filter
      (fun q => q.1 < x) =
      (v.enum.filter (fun p => p.2 < x)).map (fun p : ℕ × β => (p.2, p.1)) := by
    rw [List.filter_map]
    rfl
  rw [h1, List.length_map]
  have h2 : (v.enum.filter (fun p => p.2 < x)).map Prod.snd =
      (v.enum.map Prod.snd).filter (fun q => q < x) := by
    rw [List.filter_map]
    rfl
  have h3 := congrArg List.length h2
  rw [List.length_map, List.enum_map_snd] at h3
  exact h3

lemma rankData_length (v : List β) : (rankData v).length = v.length := by
  simp [rankData]

lemma rankData_eq (v : List β) :
    rankData v = v.map (fun p => 1 + (v.filter (fun q => q < p)).length) := by
  apply List.ext_getElem
  · rw [rankData_length, List.length_map]
  · intro i h1 h2
    have hi : i < v.length := by rw [rankData_length] at h1; exact h1
    have hrd : rankData v =
        (List.range v.length).map (fun j =>
          ((rankRuns (argSortPairs v) 0).lookup j).getD 0) := rfl
    have hstep := List.getElem_of_eq hrd h1
    rw [hstep, List.getElem_map, List.getElem_range, List.getElem_map]
    have hkeys : ((rankRuns (argSortPairs v) 0).map Prod.fst).Nodup := by
      rw [rankRuns_keys]
      exact argSortPairs_keys_nodup v
    have hmem := rankRuns_mem (argSortPairs v) (argSortPairs_sorted v) 0
      (v[i], i) (mem_argSortPairs v i hi)
    have hlook := lookup_eq_some _ i _ hkeys hmem
    rw [hlook]
    simp only [Option.getD_some]
    rw [argSortPairs_filter_length]

end OpenSkill

namespace OpenSkill

variable {α : Type} [LinearOrderedField α]

lemma foldl_max_init (l : List ℕ) : ∀ a : ℕ, a ≤ l.foldl max a := by
  induction l with
  | nil => intro a; simp
  | cons x xs ih =>
    intro a
    exact le_trans (le_max_left a x) (ih (max a x))

lemma mem_le_foldl_max (l : List ℕ) : ∀ (a x : ℕ), x ∈ l →
    x ≤ l.foldl max a := by
  induction l with
  | nil => intro a x h; cases h
  | cons y ys ih =>
    intro a x h
    rcases List.mem_cons.1 h with rfl | h'
    · exact le_trans (le_max_right a x) (foldl_max_init ys (max a x))
    · exact ih (max a y) x h'

lemma rankReflect_eq (rp : List α) :
    rankReflect rp = (reflectedBottomRanks rp).zip rp := by
  simp only [rankReflect, reflectedBottomRanks]
  congr 1
  rw [rankData_eq]
  apply List.map_congr_left
  intro r hr
  have h1 : r ≤ (rp.map
      (fun p => 1 + (rp.filter (fun q => q < p)).length)).foldl max 0 :=
    mem_le_foldl_max _ 0 r hr
  omega

lemma reflectedBottomRanks_length (rp : List α) :
    (reflectedBottomRanks rp).length = rp.length := by
  simp [reflectedBottomRanks]

lemma predictRank_eq_zip (K : Kern α) (M : Model α)
    (teams : List (List (Rating α))) :
    predictRank K M teams =
      (reflectedBottomRanks (predictRankProbs K M teams)).zip
        (predictRankProbs K M teams) := by
  rw [predictRank, rankReflect_eq]

lemma predictRank_map_snd (K : Kern α) (M : Model α)
    (teams : List (List (Rating α))) :
    (predictRank K M teams).map Prod.snd = predictRankProbs K M teams := by
  rw [predictRank_eq_zip]
  apply List.map_snd_zip
  rw [reflectedBottomRanks_length]

lemma predictRank_map_fst (K : Kern α) (M : Model α)
    (teams : List (List (Rating α))) :
    (predictRank K M teams).map Prod.fst =
      reflectedBottomRanks (predictRankProbs K M teams) := by
  rw [predictRank_eq_zip]
  apply List.map_fst_zip
  rw [reflectedBottomRanks_length]

lemma predictRank_length (K : Kern α) (M : Model α)
    (teams : List (List (Rating α))) :
    (predictRank K M teams).length = (predictRankProbs K M teams).length := by
  rw [predictRank_eq_zip, List.length_zip, reflectedBottomRanks_length,
    min_self]


lemma cnt_lt_strict (l : List α) (a b : α) (ha : a ∈ l) (hab : a < b) :
    (l.filter (fun q => q < a)).length < (l.filter (fun q => q < b)).length := by
  induction l with
  | nil => cases ha
  | cons x xs ih =>
    have hmono : (xs.filter (fun q => q < a)).length ≤
        (xs.filter (fun q => q < b)).length := by
      rw [← List.countP_eq_length_filter, ← List.countP_eq_length_filter]
      apply List.countP_mono_left
      intro q _ hq
      simp only [decide_eq_true_eq] at *
      exact lt_trans hq hab
    rcases List.mem_cons.1 ha with rfl | ha'
    · have hxa : ¬ (a < a) := lt_irrefl a
      rw [List.filter_cons_of_neg (by simpa using hxa),
        List.filter_cons_of_pos (by simpa using hab)]
      simp only [List.length_cons]
      omega
    · have hih := ih ha'
      by_cases hx : x < a
      · rw [List.filter_cons_of_pos (by simpa using hx),
          List.filter_cons_of_pos (by simpa using lt_trans hx hab)]
        simp only [List.length_cons]
        omega
      · rw [List.filter_cons_of_neg (by simpa using hx)]
        rcases le_or_lt b x with hbx | hxb
        · rw [List.filter_cons_of_neg (by simpa using not_lt_of_le hbx)]
          omega
        · rw [List.filter_cons_of_pos (by simpa using hxb)]
          simp only [List.length_cons]
          omega

end OpenSkill

namespace OpenSkill

variable {α : Type} [LinearOrderedField α]

lemma chunksOf_length_mul {β : Type} (k : ℕ) (hk : 0 < k) :
    ∀ (n : ℕ) (l : List β), l.length = n * k → (chunksOf k l).length = n := by
  intro n
  induction n with
  | zero =>
    intro l hl
    have h0 : l = [] := List.eq_nil_of_length_eq_zero (by omega)
    subst h0
    simp [chunksOf]
  | succ n ih =>
    intro l hl
    cases l with
    | nil => simp at hl; omega
    | cons x xs =>
      rw [chunksOf, List.length_cons]
      rw [ih (xs.drop (k - 1)) (by
        rw [List.length_drop]
        simp only [List.length_cons] at hl
        have hx : xs.length = (n + 1) * k - 1 := by omega
        rw [hx]
        have h1 : 1 ≤ k := hk
        have h2 : (n + 1) * k = n * k + k := by ring
        omega)]

lemma predictRankProbs_length (K : Kern α) (M : Model α)
    (teams : List (List (Rating α))) (hn : 2 ≤ teams.length) :
    (predictRankProbs K M teams).length = teams.length := by
  simp only [predictRankProbs, List.length_map]
  rw [chunksOf_length_mul (teams.length - 1) (by omega) teams.length]
  rw [List.length_map, pairIdx_length]

end OpenSkill

namespace OpenSkill

/-! ## Positional analysis of `PlackettLuce._compute` and `rate` -/

variable {α : Type} [LinearOrderedField α]

lemma calcTeamRatings_length (K : Kern α) (game : List (List (Rating α)))
    (ranks : Option (List α)) :
    (calcTeamRatings K game ranks).length = game.length := by
  simp [calcTeamRatings]

lemma calcTeamRatings_getD (K : Kern α) (game : List (List (Rating α)))
    (ranks : Option (List α)) (i : ℕ) (hi : i < game.length) :
    (calcTeamRatings K game ranks).getD i ⟨0, 0, [], 0⟩ =
      ⟨((game.getD i []).map Rating.mu).sum,
       ((game.getD i []).map (fun r => r.sigma ^ 2)).sum,
       game.getD i [],
       (calcRankings K game.length ranks).getD i 0⟩ := by
  have hlen : i < (calcTeamRatings K game ranks).length := by
    rw [calcTeamRatings_length]; exact hi
  rw [List.getD_eq_getElem _ _ hlen]
  simp only [calcTeamRatings]
  rw [List.getElem_map]
  have hin : i < game.enum.length := by rw [List.enum_length]; exact hi
  have he : game.enum[i] = (i, game[i]) := by simp [List.getElem_enum]
  rw [he, List.getD_eq_getElem _ _ hi]

lemma plCompute_length (K : Kern α) (M : Model α)
    (teams : List (List (Rating α))) (ranks : Option (List α)) :
    (plCompute K M teams ranks).length = teams.length := by
  simp [plCompute, calcTeamRatings]

lemma plCompute_team (K : Kern α) (M : Model α)
    (teams : List (List (Rating α))) (ranks : Option (List α))
    (i : ℕ) (hi : i < teams.length) :
    ∃ ω δ : α, (plCompute K M teams ranks).getD i [] =
      (teams.getD i []).map (fun p =>
        ⟨p.mu + p.sigma ^ 2 /
            ((teams.getD i []).map (fun r => r.sigma ^ 2)).sum * ω,
         p.sigma * K.sqrt (max (1 - p.sigma ^ 2 /
            ((teams.getD i []).map (fun r => r.sigma ^ 2)).sum * δ)
           M.kappa)⟩) := by
  have hlen : i < (plCompute K M teams ranks).length := by
    rw [plCompute_length]; exact hi
  rw [List.getD_eq_getElem _ _ hlen]
  simp only [plCompute]
  rw [List.getElem_map]
  have htl : i < (calcTeamRatings K teams ranks).length := by
    rw [calcTeamRatings_length]; exact hi
  have hin : i < (calcTeamRatings K teams ranks).enum.length := by
    rw [List.enum_length]; exact htl
  have he : (calcTeamRatings K teams ranks).enum[i] =
      (i, (calcTeamRatings K teams ranks)[i]) := by
    simp [List.getElem_enum]
  rw [he]
  have hti : (calcTeamRatings K teams ranks)[i] =
      ⟨((teams.getD i []).map Rating.mu).sum,
       ((teams.getD i []).map (fun r => r.sigma ^ 2)).sum,
       teams.getD i [],
       (calcRankings K teams.length ranks).getD i 0⟩ := by
    rw [← List.getD_eq_getElem _ ⟨0, 0, [], 0⟩ htl]
    exact calcTeamRatings_getD K teams ranks i hi
  rw [hti]
  exact ⟨_, _, rfl⟩

end OpenSkill

namespace OpenSkill

variable {α : Type} [LinearOrderedField α]

lemma tauInject_length (K : Kern α) (t2 : α)
    (teams : List (List (Rating α))) :
    (tauInject K t2 teams).length = teams.length := by
  simp [tauInject]

lemma tauInject_getD (K : Kern α) (t2 : α) (teams : List (List (Rating α)))
    (i : ℕ) (hi : i < teams.length) :
    (tauInject K t2 teams).getD i [] =
      (teams.getD i []).map (fun p =>
        ⟨p.mu, K.sqrt (p.sigma * p.sigma + t2)⟩) := by
  have hlen : i < (tauInject K t2 teams).length := by
    rw [tauInject_length]; exact hi
  rw [List.getD_eq_getElem _ _ hlen]
  simp only [tauInject]
  rw [List.getElem_map, List.getD_eq_getElem _ _ hi]

lemma plRate_team (K : Kern α) (M : Model α)
    (teams : List (List (Rating α))) (ranks scores : Option (List α))
    (tauArg : Option α) (lsArg : Option Bool)
    (hls : ¬ lsArg = some true)
    (hlen : pyTruthy (effRanks ranks scores) = true →
      ((effRanks ranks scores).getD []).length = teams.length)
    (i : ℕ) (hi : i < teams.length) :
    ∃ ω δ : α, (plRate K M teams ranks scores tauArg lsArg).getD i [] =
      ((tauInject K (tauEff M tauArg * tauEff M tauArg) teams).getD i []).map
        (fun p =>
          ⟨p.mu + p.sigma ^ 2 /
              (((tauInject K (tauEff M tauArg * tauEff M tauArg)
                teams).getD i []).map (fun r => r.sigma ^ 2)).sum * ω,
           p.sigma * K.sqrt (max (1 - p.sigma ^ 2 /
              (((tauInject K (tauEff M tauArg * tauEff M tauArg)
                teams).getD i []).map (fun r => r.sigma ^ 2)).sum * δ)
             M.kappa)⟩) := by
  by_cases htr : pyTruthy (effRanks ranks scores) = true
  · -- truthy ranks: sort, compute, un-permute
    have hrl : ((effRanks ranks scores).getD []).length = teams.length :=
      hlen htr
    have hlen1 : ((effRanks ranks scores).getD []).length =
        (tauInject K (tauEff M tauArg * tauEff M tauArg) teams).length := by
      rw [tauInject_length]; exact hrl
    simp only [plRate, plRatePre, htr, eq_self_iff_true, if_true, if_neg hls]
    have hperm : (unwind ((effRanks ranks scores).getD [])
        (tauInject K (tauEff M tauArg * tauEff M tauArg) teams)).2.Perm
        (List.range teams.length) := by
      have h := unwind_snd_perm ((effRanks ranks scores).getD [])
        (tauInject K (tauEff M tauArg * tauEff M tauArg) teams) hlen1
      rw [tauInject_length] at h
      exact h
    have hreslen : (plCompute K M
        (unwind ((effRanks ranks scores).getD [])
          (tauInject K (tauEff M tauArg * tauEff M tauArg) teams)).1
        (some (((effRanks ranks scores).getD []).mergeSort
          (fun a b => decide (a ≤ b))))).length = teams.length := by
      have hufl : (unwind ((effRanks ranks scores).getD [])
          (tauInject K (tauEff M tauArg * tauEff M tauArg) teams)).1.length =
          (tauInject K (tauEff M tauArg * tauEff M tauArg) teams).length :=
        unwind_fst_length _ _ hlen1
      simp only [plCompute_length, hufl]
      exact tauInject_length K _ teams
    obtain ⟨k, hk, hkey, hout⟩ := @unwind_inv α _ (List (Rating α))
      (unwind ((effRanks ranks scores).getD [])
        (tauInject K (tauEff M tauArg * tauEff M tauArg) teams)).2
      (plCompute K M
        (unwind ((effRanks ranks scores).getD [])
          (tauInject K (tauEff M tauArg * tauEff M tauArg) teams)).1
        (some (((effRanks ranks scores).getD []).mergeSort
          (fun a b => decide (a ≤ b)))))
      teams.length ([] : List (Rating α)) hperm hreslen i hi
    rw [hout]
    have hk1 : k < (unwind ((effRanks ranks scores).getD [])
        (tauInject K (tauEff M tauArg * tauEff M tauArg) teams)).1.length := by
      rw [unwind_fst_length _ _ hlen1, tauInject_length]
      exact hk
    obtain ⟨ω, δ, hcomp⟩ := plCompute_team K M
      (unwind ((effRanks ranks scores).getD [])
        (tauInject K (tauEff M tauArg * tauEff M tauArg) teams)).1
      (some (((effRanks ranks scores).getD []).mergeSort
        (fun a b => decide (a ≤ b)))) k hk1
    rw [hcomp]
    have hposn : k < (tauInject K (tauEff M tauArg * tauEff M tauArg)
        teams).length := by
      rw [tauInject_length]; exact hk
    obtain ⟨j, hj, hjval, hjrow⟩ := unwind_pos
      ((effRanks ranks scores).getD [])
      (tauInject K (tauEff M tauArg * tauEff M tauArg) teams) hlen1
      ([] : List (Rating α)) k hposn
    have hji : j = i := by rw [hjval] at hkey; exact hkey
    subst hji
    rw [hjrow]
    exact ⟨ω, δ, rfl⟩
  · -- falsy ranks: teams are processed in place
    simp only [plRate, plRatePre, htr, if_neg, Bool.not_eq_true, if_neg hls]
    exact plCompute_team K M _ none i (by rw [tauInject_length]; exact hi)

end OpenSkill

namespace OpenSkill

variable {α : Type} [LinearOrderedField α]

lemma plRate_length (K : Kern α) (M : Model α)
    (teams : List (List (Rating α))) (ranks scores : Option (List α))
    (tauArg : Option α)
    (hlen : pyTruthy (effRanks ranks scores) = true →
      ((effRanks ranks scores).getD []).length = teams.length) :
    (plRate K M teams ranks scores tauArg none).length = teams.length := by
  by_cases htr : pyTruthy (effRanks ranks scores) = true
  · have hrl := hlen htr
    have hlen1 : ((effRanks ranks scores).getD []).length =
        (tauInject K (tauEff M tauArg * tauEff M tauArg) teams).length := by
      rw [tauInject_length]; exact hrl
    simp only [plRate, plRatePre, htr, eq_self_iff_true, if_true,
      if_neg (by simp : ¬ (none : Option Bool) = some true)]
    have htens : ((unwind ((effRanks ranks scores).getD [])
        (tauInject K (tauEff M tauArg * tauEff M tauArg) teams)).2.map
          (fun j : ℕ => (j : α))).length =
        (plCompute K M
          (unwind ((effRanks ranks scores).getD [])
            (tauInject K (tauEff M tauArg * tauEff M tauArg) teams)).1
          (some (((effRanks ranks scores).getD []).mergeSort
            (fun a b => decide (a ≤ b))))).length := by
      rw [List.length_map, unwind_snd_length _ _ hlen1, plCompute_length,
        unwind_fst_length _ _ hlen1]
    have h1 := unwind_fst_length _ _ htens
    rw [h1, plCompute_length, unwind_fst_length _ _ hlen1]
    exact tauInject_length K _ teams
  · simp only [plRate, plRatePre, htr, if_neg, Bool.not_eq_true,
      if_neg (by simp : ¬ (none : Option Bool) = some true)]
    rw [plCompute_length]
    exact tauInject_length K _ teams

lemma plRate_row_length (K : Kern α) (M : Model α)
    (teams : List (List (Rating α))) (ranks scores : Option (List α))
    (tauArg : Option α)
    (hlen : pyTruthy (effRanks ranks scores) = true →
      ((effRanks ranks scores).getD []).length = teams.length)
    (i : ℕ) (hi : i < teams.length) :
    ((plRate K M teams ranks scores tauArg none).getD i []).length =
      (teams.getD i []).length := by
  obtain ⟨ω, δ, h⟩ := plRate_team K M teams ranks scores tauArg none
    (by simp) hlen i hi
  rw [h, List.length_map, tauInject_getD K _ teams i hi, List.length_map]

lemma plRate_some_true (K : Kern α) (M : Model α)
    (teams : List (List (Rating α))) (ranks scores : Option (List α))
    (tauArg : Option α) :
    plRate K M teams ranks scores tauArg (some true) =
      (plRate K M teams ranks scores tauArg none).enum.map (fun tp =>
        tp.2.enum.map (fun pp =>
          let orig := (teams.getD tp.1 []).getD pp.1 ⟨0, 0⟩
          let p := pp.2
          (⟨p.mu, if p.sigma ≤ orig.sigma then p.sigma else orig.sigma⟩ :
            Rating α))) := by
  simp only [plRate]
  rw [if_pos trivial, if_neg (by simp : ¬ (none : Option Bool) = some true)]

lemma plRate_limit_entry (K : Kern α) (M : Model α)
    (teams : List (List (Rating α))) (ranks scores : Option (List α))
    (tauArg : Option α)
    (hlen : pyTruthy (effRanks ranks scores) = true →
      ((effRanks ranks scores).getD []).length = teams.length)
    (i j : ℕ) (hi : i < teams.length) (hj : j < (teams.getD i []).length) :
    ((plRate K M teams ranks scores tauArg (some true)).getD i []).getD j
        ⟨0, 0⟩ =
      ⟨(((plRate K M teams ranks scores tauArg none).getD i []).getD j
          ⟨0, 0⟩).mu,
       if (((plRate K M teams ranks scores tauArg none).getD i []).getD j
            ⟨0, 0⟩).sigma ≤ ((teams.getD i []).getD j ⟨0, 0⟩).sigma
       then (((plRate K M teams ranks scores tauArg none).getD i []).getD j
            ⟨0, 0⟩).sigma
       else ((teams.getD i []).getD j ⟨0, 0⟩).sigma⟩ := by
  rw [plRate_some_true]
  have hi0 : i < (plRate K M teams ranks scores tauArg none).length := by
    rw [plRate_length K M teams ranks scores tauArg hlen]; exact hi
  have hie : i < (plRate K M teams ranks scores tauArg none).enum.length := by
    rw [List.enum_length]; exact hi0
  have hmap : i < ((plRate K M teams ranks scores tauArg none).enum.map
      (fun tp => tp.2.enum.map (fun pp =>
        let orig := (teams.getD tp.1 []).getD pp.1 ⟨0, 0⟩
        let p := pp.2
        (⟨p.mu, if p.sigma ≤ orig.sigma then p.sigma else orig.sigma⟩ :
          Rating α)))).length := by
    rw [List.length_map]; exact hie
  rw [List.getD_eq_getElem _ _ hmap, List.getElem_map]
  have he : (plRate K M teams ranks scores tauArg none).enum[i] =
      (i, (plRate K M teams ranks scores tauArg none)[i]) := by
    simp [List.getElem_enum]
  rw [he]
  have hj0 : j < ((plRate K M teams ranks scores tauArg none)[i]).length := by
    rw [← List.getD_eq_getElem _ [] hi0,
      plRate_row_length K M teams ranks scores tauArg hlen i hi]
    exact hj
  have hje : j < ((plRate K M teams ranks scores tauArg none)[i]).enum.length := by
    rw [List.enum_length]; exact hj0
  have hjm : j < (((plRate K M teams ranks scores tauArg none)[i]).enum.map
      (fun pp =>
        let orig := (teams.getD i []).getD pp.1 ⟨0, 0⟩
        let p := pp.2
        (⟨p.mu, if p.sigma ≤ orig.sigma then p.sigma else orig.sigma⟩ :
          Rating α))).length := by
    rw [List.length_map]; exact hje
  rw [List.getD_eq_getElem _ _ hjm, List.getElem_map]
  have hpe : ((plRate K M teams ranks scores tauArg none)[i]).enum[j] =
      (j, ((plRate K M teams ranks scores tauArg none)[i])[j]) := by
    simp [List.getElem_enum]
  rw [hpe]
  rw [List.getD_eq_getElem _ _ hi0, List.getD_eq_getElem _ _ hj0]

end OpenSkill

namespace OpenSkill

variable {α : Type} [LinearOrderedField α]

lemma applyWrites_sigma_le (ps : List (String × Rating α)) (st : St α)
    (e : String) :
    (applyWrites true ps st e).sigma ≤ (st e).sigma := by
  induction ps generalizing st with
  | nil => exact le_refl _
  | cons p rest ih =>
    show (applyWrites true rest _ e).sigma ≤ _
    refine le_trans (ih _) ?_
    by_cases hep : e = p.1
    · simp only [hep, if_pos]
      exact min_le_right _ _
    · simp only [hep, if_neg, not_false_iff]
      exact le_refl _

lemma rateGameFast_sigma_le (K : Kern α) (C : Compute α) (tauSquared : α)
    (g : Game α) (st : St α) (e : String) :
    (rateGameFast K C tauSquared true g st e).sigma ≤ (st e).sigma :=
  applyWrites_sigma_le _ st e

lemma waveShuffle_refl (ws : List (List (ℕ × Game α))) : WaveShuffle ws ws :=
  ⟨rfl, fun _ _ => List.Perm.refl _⟩

lemma foldl_heap_frame {γ : Type} (step : Heap α → γ → Heap α)
    (tgt : γ → List ℕ)
    (hstep : ∀ (h : Heap α) (x : γ) (id : ℕ), id ∉ tgt x → step h x id = h id)
    (l : List γ) (h : Heap α) (id : ℕ) (hid : ∀ x ∈ l, id ∉ tgt x) :
    l.foldl step h id = h id := by
  induction l generalizing h with
  | nil => rfl
  | cons x xs ih =>
    show xs.foldl step (step h x) id = h id
    rw [ih _ (fun y hy => hid y (List.mem_cons_of_mem _ hy)),
      hstep h x id (hid x (List.mem_cons_self _ _))]

lemma writeHeap_ne (h : Heap α) (id j : ℕ) (r : Rating α) (hne : j ≠ id) :
    writeHeap h id r j = h j := by
  simp [writeHeap, hne]

end OpenSkill

namespace OpenSkill

variable {α : Type} [LinearOrderedField α]

lemma enum_snd_mem {γ : Type} {l : List γ} {p : ℕ × γ} (h : p ∈ l.enum) :
    p.2 ∈ l := by
  have h1 : p.2 ∈ l.enum.map Prod.snd := List.mem_map.2 ⟨p, h, rfl⟩
  rw [List.enum_map_snd] at h1
  exact h1

lemma perm_flatten {γ : Type} {l₁ l₂ : List (List γ)} (h : l₁.Perm l₂) :
    l₁.flatten.Perm l₂.flatten :=
  h.join

lemma plRateHeap_fst (K : Kern α) (M : Model α) (teams : List (List ℕ))
    (h0 : Heap α) (ranks scores : Option (List α)) (tauArg : Option α)
    (lsArg : Option Bool) :
    (plRateHeap K M teams h0 ranks scores tauArg lsArg).1 =
      if pyTruthy (effRanks ranks scores) = true then
        (unwind ((unwind ((effRanks ranks scores).getD []) teams).2.map
            (fun j : ℕ => (j : α)))
          (unwind ((effRanks ranks scores).getD []) teams).1).1
      else teams := by
  by_cases htr : pyTruthy (effRanks ranks scores) = true
  · simp only [plRateHeap, htr, eq_self_iff_true, if_true]
    by_cases hls : lsArg = some true
    · rw [if_pos hls]
    · rw [if_neg hls]
  · simp only [plRateHeap, htr, if_neg, Bool.not_eq_true]
    by_cases hls : lsArg = some true
    · rw [if_pos hls]
    · rw [if_neg hls]

lemma plRateHeap_ids (K : Kern α) (M : Model α) (teams : List (List ℕ))
    (h0 : Heap α) (ranks scores : Option (List α)) (tauArg : Option α)
    (lsArg : Option Bool)
    (hlen : pyTruthy (effRanks ranks scores) = true →
      ((effRanks ranks scores).getD []).length = teams.length) :
    (plRateHeap K M teams h0 ranks scores tauArg lsArg).1.flatten.Perm
      teams.flatten := by
  rw [plRateHeap_fst]
  by_cases htr : pyTruthy (effRanks ranks scores) = true
  · rw [if_pos htr]
    have hlen1 : ((effRanks ranks scores).getD []).length = teams.length :=
      hlen htr
    have hp1 : (unwind ((effRanks ranks scores).getD []) teams).1.Perm teams :=
      unwind_fst_perm _ _ hlen1
    have hlen2 : ((unwind ((effRanks ranks scores).getD []) teams).2.map
        (fun j : ℕ => (j : α))).length =
        (unwind ((effRanks ranks scores).getD []) teams).1.length := by
      rw [List.length_map, unwind_snd_length _ _ hlen1,
        unwind_fst_length _ _ hlen1]
    have hp2 : (unwind ((unwind ((effRanks ranks scores).getD []) teams).2.map
        (fun j : ℕ => (j : α)))
        (unwind ((effRanks ranks scores).getD []) teams).1).1.Perm
        (unwind ((effRanks ranks scores).getD []) teams).1 :=
      unwind_fst_perm _ _ hlen2
    exact (perm_flatten hp2).trans (perm_flatten hp1)
  · rw [if_neg htr]

end OpenSkill

namespace OpenSkill

variable {α : Type} [LinearOrderedField α]

lemma plRateHeap_frame (K : Kern α) (M : Model α) (teams : List (List ℕ))
    (h0 : Heap α) (ranks scores : Option (List α)) (tauArg : Option α)
    (lsArg : Option Bool)
    (hlen : pyTruthy (effRanks ranks scores) = true →
      ((effRanks ranks scores).getD []).length = teams.length)
    (id : ℕ) (hid : id ∉ teams.flatten) :
    (plRateHeap K M teams h0 ranks scores tauArg lsArg).2 id = h0 id := by
  have htau : ∀ x ∈ teams.flatten, id ∉ [x] := by
    intro x hx
    simp only [List.mem_singleton]
    intro he
    exact hid (he ▸ hx)
  by_cases htr : pyTruthy (effRanks ranks scores) = true
  · have hlen1 : ((effRanks ranks scores).getD []).length = teams.length :=
      hlen htr
    have hp1 : (unwind ((effRanks ranks scores).getD []) teams).1.Perm teams :=
      unwind_fst_perm _ _ hlen1
    have hpre1 : id ∉ (unwind ((effRanks ranks scores).getD []) teams).1.flatten :=
      fun hmem => hid ((perm_flatten hp1).subset hmem)
    have hlen2 : ((unwind ((effRanks ranks scores).getD []) teams).2.map
        (fun j : ℕ => (j : α))).length =
        (unwind ((effRanks ranks scores).getD []) teams).1.length := by
      rw [List.length_map, unwind_snd_length _ _ hlen1,
        unwind_fst_length _ _ hlen1]
    have hout : id ∉ (unwind ((unwind ((effRanks ranks scores).getD [])
        teams).2.map (fun j : ℕ => (j : α)))
        (unwind ((effRanks ranks scores).getD []) teams).1).1.flatten :=
      fun hmem => hpre1 ((perm_flatten (unwind_fst_perm _ _ hlen2)).subset hmem)
    simp only [plRateHeap, htr, eq_self_iff_true, if_true]
    by_cases hls : lsArg = some true
    · rw [if_pos hls]
      refine ((foldl_heap_frame _ (fun tp : ℕ × List ℕ => tp.2) ?_ _ _ id
        ?_).trans
        ((foldl_heap_frame _ (fun p : ℕ × Rating α => [p.1]) ?_ _ _ id
          ?_).trans
        (foldl_heap_frame _ (fun x : ℕ => [x]) ?_ _ _ id htau)))
      · intro h tp j hj
        refine foldl_heap_frame _ (fun pp : ℕ × ℕ => [pp.2]) ?_ _ _ j ?_
        · intro h2 pp j2 hj2
          exact writeHeap_ne h2 pp.2 j2 _ (by simpa using hj2)
        · intro pp hpp
          simp only [List.mem_singleton]
          intro he
          exact hj (he ▸ enum_snd_mem hpp)
      · intro tp htp hmem
        exact hout (List.mem_flatten.2 ⟨tp.2, enum_snd_mem htp, hmem⟩)
      · intro h p j hj
        exact writeHeap_ne h p.1 j p.2 (by simpa using hj)
      · intro p hp
        simp only [List.mem_singleton]
        intro he
        exact hpre1 (he ▸ (List.mem_zip hp).1)
      · intro h x j hj
        exact writeHeap_ne h x j _ (by simpa using hj)
    · rw [if_neg hls]
      refine (foldl_heap_frame _ (fun p : ℕ × Rating α => [p.1]) ?_ _ _ id
          ?_).trans
        (foldl_heap_frame _ (fun x : ℕ => [x]) ?_ _ _ id htau)
      · intro h p j hj
        exact writeHeap_ne h p.1 j p.2 (by simpa using hj)
      · intro p hp
        simp only [List.mem_singleton]
        intro he
        exact hpre1 (he ▸ (List.mem_zip hp).1)
      · intro h x j hj
        exact writeHeap_ne h x j _ (by simpa using hj)
  · simp only [plRateHeap, htr, if_neg, Bool.not_eq_true]
    by_cases hls : lsArg = some true
    · rw [if_pos hls]
      refine ((foldl_heap_frame _ (fun tp : ℕ × List ℕ => tp.2) ?_ _ _ id
        ?_).trans
        ((foldl_heap_frame _ (fun p : ℕ × Rating α => [p.1]) ?_ _ _ id
          ?_).trans
        (foldl_heap_frame _ (fun x : ℕ => [x]) ?_ _ _ id htau)))
      · intro h tp j hj
        refine foldl_heap_frame _ (fun pp : ℕ × ℕ => [pp.2]) ?_ _ _ j ?_
        · intro h2 pp j2 hj2
          exact writeHeap_ne h2 pp.2 j2 _ (by simpa using hj2)
        · intro pp hpp
          simp only [List.mem_singleton]
          intro he
          exact hj (he ▸ enum_snd_mem hpp)
      · intro tp htp hmem
        exact hid (List.mem_flatten.2 ⟨tp.2, enum_snd_mem htp, hmem⟩)
      · intro h p j hj
        exact writeHeap_ne h p.1 j p.2 (by simpa using hj)
      · intro p hp
        simp only [List.mem_singleton]
        intro he
        exact hid (he ▸ (List.mem_zip hp).1)
      · intro h x j hj
        exact writeHeap_ne h x j _ (by simpa using hj)
    · rw [if_neg hls]
      refine (foldl_heap_frame _ (fun p : ℕ × Rating α => [p.1]) ?_ _ _ id
          ?_).trans
        (foldl_heap_frame _ (fun x : ℕ => [x]) ?_ _ _ id htau)
      · intro h p j hj
        exact writeHeap_ne h p.1 j p.2 (by simpa using hj)
      · intro p hp
        simp only [List.mem_singleton]
        intro he
        exact hid (he ▸ (List.mem_zip hp).1)
      · intro h x j hj
        exact writeHeap_ne h x j _ (by simpa using hj)

end OpenSkill

namespace OpenSkill

/-! ## The claims -/

variable {α : Type} [LinearOrderedField α]

/-- C3: for every input list of games, `partition_waves` returns waves
whose games are pairwise entity-disjoint (no entity appears in two
distinct games of one wave), every input game is placed exactly once,
and any two games that share an entity are placed in strictly
increasing waves following their input order. -/
theorem c3_partition_waves_invariants (gs : List (Game α)) :
    (∀ w, ((partitionWaves gs).getD w []).Pairwise
      (fun a b => Disjoint (gameEnts a.2) (gameEnts b.2))) ∧
    (partitionWaves gs).flatten.Perm gs.enum ∧
    (∀ w w' ig jg, ig ∈ (partitionWaves gs).getD w [] →
      jg ∈ (partitionWaves gs).getD w' [] → ig.1 < jg.1 →
      ¬Disjoint (gameEnts ig.2) (gameEnts jg.2) → w < w') :=
  ⟨partitionWaves_pairwise gs, partitionWaves_flatten gs,
   fun w w' ig jg => partitionWaves_order gs w w' ig jg⟩

/-- C2: for every model-specific compute function and every game list,
executing the waves of `partition_waves` in order — each wave's games
in any order — gives every entity the same final rating as sequential
processing in the original input order; in particular
`Ladder.rate_batch` agrees with sequential processing. -/
theorem c2_wave_equivalence (K : Kern α) (C : Compute α) (tauSquared : α)
    (limitSigma : Bool) (gs : List (Game α))
    (es : List (List (ℕ × Game α))) (st : St α)
    (hsh : WaveShuffle (partitionWaves gs) es) (e : String) :
    runWaves K C tauSquared limitSigma es st e =
      rateSeq K C tauSquared limitSigma gs st e ∧
    rateBatch K C tauSquared limitSigma gs st e =
      rateSeq K C tauSquared limitSigma gs st e := by
  constructor
  · rw [runWaves_shuffle_eq K C tauSquared limitSigma gs es st hsh]
  · rw [rateBatch, runWaves_shuffle_eq K C tauSquared limitSigma gs _ st
      (waveShuffle_refl _)]

/-- Witness for C2 at a concrete two-game batch over ℚ. -/
theorem c2_wave_equivalence_witness :
    runWaves dKern (fun ts _ _ _ => ts) 0 false
        (partitionWaves [⟨[["a"], ["b"]], none, none, none⟩,
          ⟨[["a"], ["c"]], none, none, none⟩])
        (fun _ => ⟨25, 25 / 3⟩) "a" =
      rateSeq dKern (fun ts _ _ _ => ts) 0 false
        [⟨[["a"], ["b"]], none, none, none⟩,
          ⟨[["a"], ["c"]], none, none, none⟩]
        (fun _ => ⟨25, 25 / 3⟩) "a" :=
  (c2_wave_equivalence dKern (fun ts _ _ _ => ts) 0 false _ _
    (fun _ => ⟨25, 25 / 3⟩) (waveShuffle_refl _) "a").1

/-- C10: `BatchProcessor.process` on an empty game list returns exactly
the content of `initial_ratings` (the empty dict when it is absent),
and the result does not depend on the kernel, the compute function or
the model — no rating computation happens. -/
theorem c10_empty_process (K K' : Kern α) (C C' : Compute α) (M M' : Model α)
    (init : Option (List (String × Rating α))) (l : List (String × Rating α)) :
    processBatch K C M [] (some l) = l ∧
    processBatch K C M [] none = ([] : List (String × Rating α)) ∧
    processBatch K C M [] init = processBatch K' C' M' [] init := by
  refine ⟨?_, rfl, ?_⟩
  · cases l with
    | nil => rfl
    | cons x xs => rfl
  · cases init with
    | none => rfl
    | some l2 => rfl

/-- C7: for any kernel whose CDF satisfies the reflection law
`phi x + phi (-x) = 1` and any list of at least two teams, the
probabilities returned by `predict_win` sum to exactly 1, and in the
two-team case the result is the pair `[p, 1 - p]`. -/
theorem c7_predict_win_sums_to_one (K : Kern α) (M : Model α)
    (teams : List (List (Rating α)))
    (hphi : ∀ x, K.phiMajor x + K.phiMajor (-x) = 1)
    (hn : 2 ≤ teams.length) :
    (predictWin K M teams).sum = 1 ∧
    (teams.length = 2 → predictWin K M teams =
      [(predictWin K M teams).getD 0 0,
       1 - (predictWin K M teams).getD 0 0]) := by
  refine ⟨predictWin_sum K M teams hphi hn, ?_⟩
  intro h2
  simp [predictWin, h2]

/-- Witness for C7 at three equal teams over ℚ. -/
theorem c7_predict_win_witness :
    (predictWin dKern (defaultModel dKern)
      [[⟨25, 8⟩], [⟨25, 8⟩], [⟨25, 8⟩]]).sum = 1 :=
  (c7_predict_win_sums_to_one dKern (defaultModel dKern)
    [[⟨25, 8⟩], [⟨25, 8⟩], [⟨25, 8⟩]]
    (fun x => by show x + 1 / 2 + (-x + 1 / 2) = 1; ring)
    (by decide)).1

end OpenSkill

namespace OpenSkill

variable {α : Type} [LinearOrderedField α]

/-- C8 (corrected): for any kernel whose CDF is monotone, whose square
root is nonnegative and whose inverse CDF is nonnegative from one half
on, `predict_draw` returns the amended formula: the spec's accumulands
evaluated at each team's *first player* (not the team aggregates),
divided by `n*(n-1)` only when `n > 2` — for two teams the plain sum
of the two ordered-pair values (twice their mean) is returned. -/
theorem c8_predict_draw_corrected (K : Kern α) (M : Model α)
    (teams : List (List (Rating α)))
    (hmono : Monotone K.phiMajor)
    (hsq : ∀ x, 0 ≤ K.sqrt x)
    (hbeta : 0 ≤ M.beta)
    (hinv : ∀ x, 1 / 2 ≤ x → 0 ≤ K.phiMajorInverse x) :
    predictDraw K M teams = predictDrawAmended K M teams :=
  predictDraw_eq_amended K M teams hmono hsq hbeta hinv

/-- Witness for C8 at a concrete multi-player input over ℚ. -/
theorem c8_predict_draw_witness :
    predictDraw dKern (defaultModel dKern) [[⟨1, 1⟩, ⟨2, 1⟩], [⟨3, 1⟩]] =
      predictDrawAmended dKern (defaultModel dKern)
        [[⟨1, 1⟩, ⟨2, 1⟩], [⟨3, 1⟩]] :=
  c8_predict_draw_corrected dKern (defaultModel dKern)
    [[⟨1, 1⟩, ⟨2, 1⟩], [⟨3, 1⟩]]
    (fun a b h => add_le_add_right h (1 / 2 : ℚ))
    (fun _ => zero_le_one)
    (by norm_num [defaultModel])
    (fun x hx => le_trans (by norm_num) hx)

/-- Counterexample for C8: the kernel stand-in satisfies the CDF laws
the spec relies on, yet on a concrete two-team game (first team of two
players) the value `predict_draw` returns differs from the spec's
formula (team aggregates, mean over ordered pairs). -/
theorem c8_predict_draw_counterexample :
    (∀ x y : ℚ, dKern.phiMajor x ≤ dKern.phiMajor (x + |y|)) ∧
    (∀ x : ℚ, dKern.phiMajor x + dKern.phiMajor (-x) = 1) ∧
    (∀ x : ℚ, 0 ≤ dKern.sqrt x) ∧
    predictDraw dKern (defaultModel dKern) [[⟨1, 1⟩, ⟨2, 1⟩], [⟨3, 1⟩]] ≠
      predictDrawClaim dKern (defaultModel dKern)
        [[⟨1, 1⟩, ⟨2, 1⟩], [⟨3, 1⟩]] := by
  refine ⟨?_, ?_, ?_, ?_⟩
  · intro x y
    show x + 1 / 2 ≤ x + |y| + 1 / 2
    have := abs_nonneg y
    linarith
  · intro x
    show x + 1 / 2 + (-x + 1 / 2) = 1
    ring
  · intro x
    exact zero_le_one
  · have h1 : predictDraw dKern (defaultModel dKern)
        [[⟨1, 1⟩, ⟨2, 1⟩], [⟨3, 1⟩]] = 100 / 9 := by
      simp only [predictDraw, pairIdx, headRating, dKern, defaultModel,
        List.flatMap, List.range, List.map, List.filter, List.flatten,
        List.sum_cons, List.sum_nil, List.length, List.getD, List.headD]
      norm_num
    have h2 : predictDrawClaim dKern (defaultModel dKern)
        [[⟨1, 1⟩, ⟨2, 1⟩], [⟨3, 1⟩]] = 50 / 9 := by
      simp only [predictDrawClaim, pairIdx, headRating, dKern, defaultModel,
        calcTeamRatings, calcRankings, teamScores, rankScan, List.enum,
        List.flatMap, List.range, List.map, List.filter, List.flatten,
        List.sum_cons, List.sum_nil, List.length, List.getD, List.headD]
      norm_num
    rw [h1, h2]
    norm_num

end OpenSkill

namespace OpenSkill

variable {α : Type} [LinearOrderedField α]

/-- C5 (corrected): the model-level `PlackettLuce.rate` does inject tau
into every participating player before `_compute` — the team list at
the `_compute` call site is (a permutation of) the tau-injected teams,
and the model default is `tau = 25/300 = mu/300`.  The *legacy*
`rate()` of `openskill/rate.py`, however, skips the injection entirely
whenever no explicit `tau` option is supplied. -/
theorem c5_tau_injection (K : Kern α) (M : Model α)
    (teams : List (List (Rating α))) (ranks scores : Option (List α))
    (tauArg : Option α)
    (hlen : pyTruthy (effRanks ranks scores) = true →
      ((effRanks ranks scores).getD []).length =
        (tauInject K (tauEff M tauArg * tauEff M tauArg) teams).length) :
    (plRatePre K M teams ranks scores tauArg).1.Perm
      (tauInject K (tauEff M tauArg * tauEff M tauArg) teams) ∧
    tauEff (defaultModel K) none = 25 / 300 ∧
    (∀ o : OldOpts α, o.tauOpt = none → o.rank = none → o.score = none →
      oldRateComputeInput K o teams = teams) := by
  refine ⟨?_, rfl, ?_⟩
  · by_cases htr : pyTruthy (effRanks ranks scores) = true
    · simp only [plRatePre, htr, eq_self_iff_true, if_true]
      exact unwind_fst_perm _ _ (hlen htr)
    · simp only [plRatePre, htr, if_neg, Bool.not_eq_true]
      exact List.Perm.refl _
  · rintro ⟨tauOpt, muOpt, rank, score⟩ h1 h2 h3
    simp only at h1 h2 h3
    subst h1; subst h2; subst h3
    rfl

/-- Witness for C5 at a concrete call over ℚ. -/
theorem c5_tau_injection_witness :
    (plRatePre dKern (defaultModel dKern) [[⟨25, 3⟩]] none none none).1.Perm
      (tauInject dKern
        (tauEff (defaultModel dKern) none * tauEff (defaultModel dKern) none)
        [[⟨25, 3⟩]]) ∧
    tauEff (defaultModel dKern) none = 25 / 300 ∧
    (∀ o : OldOpts ℚ, o.tauOpt = none → o.rank = none → o.score = none →
      oldRateComputeInput dKern o [[⟨25, 3⟩]] = [[⟨25, 3⟩]]) :=
  c5_tau_injection dKern (defaultModel dKern) [[⟨25, 3⟩]] none none none
    (fun h => absurd h (by decide))

/-- Counterexample for C5: a legacy `rate()` call with no options hands
`_compute` the caller's sigma of `25/3` unchanged, while the claimed
pre-processing would replace it by
`sqrt((25/3)^2 + (25/300)^2) > 25/3`. -/
theorem c5_tau_injection_counterexample :
    oldRateComputeInput rKern ⟨none, none, none, none⟩ [[⟨25, 25 / 3⟩]] =
      [[⟨25, 25 / 3⟩]] ∧
    Real.sqrt (25 / 3 * (25 / 3) + 25 / 300 * (25 / 300)) ≠ 25 / 3 := by
  constructor
  · rfl
  · have h : (25 / 3 : ℝ) < Real.sqrt (25 / 3 * (25 / 3) + 25 / 300 * (25 / 300)) := by
      rw [show (25 / 3 : ℝ) * (25 / 3) + 25 / 300 * (25 / 300) =
        (25 / 3) ^ 2 + (25 / 300) ^ 2 by ring]
      have h1 : (25 / 3 : ℝ) ^ 2 < (25 / 3) ^ 2 + (25 / 300) ^ 2 := by
        norm_num
      calc (25 / 3 : ℝ) = Real.sqrt ((25 / 3) ^ 2) := by
            rw [Real.sqrt_sq (by norm_num)]
        _ < Real.sqrt ((25 / 3) ^ 2 + (25 / 300) ^ 2) := by
            apply Real.sqrt_lt_sqrt (by positivity) h1
      
    exact (ne_of_lt h).symm

end OpenSkill

namespace OpenSkill

variable {α : Type} [LinearOrderedField α]

lemma plRate_entry (K : Kern α) (M : Model α)
    (teams : List (List (Rating α))) (ranks scores : Option (List α))
    (tauArg : Option α)
    (hlen : pyTruthy (effRanks ranks scores) = true →
      ((effRanks ranks scores).getD []).length = teams.length)
    (i j : ℕ) (hi : i < teams.length) (hj : j < (teams.getD i []).length) :
    ∃ ω δ S : α,
      ((plRate K M teams ranks scores tauArg none).getD i []).getD j ⟨0, 0⟩ =
        ⟨((teams.getD i []).getD j ⟨0, 0⟩).mu +
           K.sqrt (((teams.getD i []).getD j ⟨0, 0⟩).sigma *
               ((teams.getD i []).getD j ⟨0, 0⟩).sigma +
             tauEff M tauArg * tauEff M tauArg) ^ 2 / S * ω,
         K.sqrt (((teams.getD i []).getD j ⟨0, 0⟩).sigma *
             ((teams.getD i []).getD j ⟨0, 0⟩).sigma +
           tauEff M tauArg * tauEff M tauArg) *
           K.sqrt (max (1 - K.sqrt (((teams.getD i []).getD j ⟨0, 0⟩).sigma *
               ((teams.getD i []).getD j ⟨0, 0⟩).sigma +
             tauEff M tauArg * tauEff M tauArg) ^ 2 / S * δ) M.kappa)⟩ := by
  obtain ⟨ω, δ, h⟩ := plRate_team K M teams ranks scores tauArg none
    (by simp) hlen i hi
  refine ⟨ω, δ,
    (((tauInject K (tauEff M tauArg * tauEff M tauArg) teams).getD i []).map
      (fun r => r.sigma ^ 2)).sum, ?_⟩
  rw [h, tauInject_getD K _ teams i hi, List.map_map]
  rw [List.getD_eq_getElem _ _ (by rw [List.length_map]; exact hj),
    List.getElem_map, List.getD_eq_getElem _ _ hj]
  rfl

lemma plRate_sigma_bounds (K : Kern α) (M : Model α)
    (teams : List (List (Rating α))) (ranks scores : Option (List α))
    (tauArg : Option α)
    (hsq2 : ∀ x : α, 0 ≤ x → K.sqrt x ^ 2 = x)
    (hsqpos : ∀ x : α, 0 < x → 0 < K.sqrt x)
    (hkappa : 0 < M.kappa)
    (hlen : pyTruthy (effRanks ranks scores) = true →
      ((effRanks ranks scores).getD []).length = teams.length)
    (i j : ℕ) (hi : i < teams.length) (hj : j < (teams.getD i []).length)
    (hsigp : 0 < ((teams.getD i []).getD j ⟨0, 0⟩).sigma) :
    0 < (((plRate K M teams ranks scores tauArg none).getD i []).getD j
        ⟨0, 0⟩).sigma ∧
      M.kappa * (((teams.getD i []).getD j ⟨0, 0⟩).sigma ^ 2 +
          tauEff M tauArg ^ 2) ≤
        (((plRate K M teams ranks scores tauArg none).getD i []).getD j
          ⟨0, 0⟩).sigma ^ 2 := by
  obtain ⟨ω, δ, S, h⟩ := plRate_entry K M teams ranks scores tauArg hlen
    i j hi hj
  rw [h]
  have ha1 : 0 < ((teams.getD i []).getD j ⟨0, 0⟩).sigma *
      ((teams.getD i []).getD j ⟨0, 0⟩).sigma +
      tauEff M tauArg * tauEff M tauArg := by
    have h1 : 0 < ((teams.getD i []).getD j ⟨0, 0⟩).sigma *
        ((teams.getD i []).getD j ⟨0, 0⟩).sigma := mul_pos hsigp hsigp
    have h2 : 0 ≤ tauEff M tauArg * tauEff M tauArg := mul_self_nonneg _
    linarith
  set A := max (1 - K.sqrt (((teams.getD i []).getD j ⟨0, 0⟩).sigma *
      ((teams.getD i []).getD j ⟨0, 0⟩).sigma +
      tauEff M tauArg * tauEff M tauArg) ^ 2 / S * δ) M.kappa with hA
  have ha2 : 0 < A := by
    rw [hA]
    exact lt_of_lt_of_le hkappa (le_max_right _ _)
  have hmax : M.kappa ≤ A := by
    rw [hA]
    exact le_max_right _ _
  have hs1 := hsqpos _ ha1
  have hs2 := hsqpos _ ha2
  constructor
  · show 0 < K.sqrt _ * K.sqrt _
    exact mul_pos hs1 hs2
  · show M.kappa * _ ≤ (K.sqrt _ * K.sqrt _) ^ 2
    rw [mul_pow, hsq2 _ (le_of_lt ha1), hsq2 _ (le_of_lt ha2)]
    nlinarith [mul_le_mul_of_nonneg_left hmax (le_of_lt ha1)]

end OpenSkill

namespace OpenSkill

variable {α : Type} [LinearOrderedField α]

/-- C4 (corrected): when the *per-call* `limit_sigma` clamp is inactive
(the default), every rating returned by `rate` satisfies `sigma > 0`
and `sigma^2 >= kappa * (sigma_input^2 + tau^2)` — the variance-shrink
factor is clamped below at `kappa` before the square root.  (The
per-call clamp can break the second inequality; see the
counterexample.) -/
theorem c4_sigma_floor (K : Kern α) (M : Model α)
    (teams : List (List (Rating α))) (ranks scores : Option (List α))
    (tauArg : Option α)
    (hsq2 : ∀ x : α, 0 ≤ x → K.sqrt x ^ 2 = x)
    (hsqpos : ∀ x : α, 0 < x → 0 < K.sqrt x)
    (hkappa : 0 < M.kappa)
    (hlen : pyTruthy (effRanks ranks scores) = true →
      ((effRanks ranks scores).getD []).length = teams.length)
    (hsig : ∀ tm ∈ teams, ∀ p ∈ tm, 0 < p.sigma)
    (i j : ℕ) (hi : i < teams.length) (hj : j < (teams.getD i []).length) :
    0 < (((plRate K M teams ranks scores tauArg none).getD i []).getD j
        ⟨0, 0⟩).sigma ∧
      M.kappa * (((teams.getD i []).getD j ⟨0, 0⟩).sigma ^ 2 +
          tauEff M tauArg ^ 2) ≤
        (((plRate K M teams ranks scores tauArg none).getD i []).getD j
          ⟨0, 0⟩).sigma ^ 2 := by
  have htm : teams.getD i [] ∈ teams := by
    rw [List.getD_eq_getElem _ _ hi]
    exact List.getElem_mem hi
  have hp : (teams.getD i []).getD j ⟨0, 0⟩ ∈ teams.getD i [] := by
    rw [List.getD_eq_getElem _ _ hj]
    exact List.getElem_mem hj
  exact plRate_sigma_bounds K M teams ranks scores tauArg hsq2 hsqpos hkappa
    hlen i j hi hj (hsig _ htm _ hp)

/-- Witness for C4 over ℝ with the true square root. -/
theorem c4_sigma_floor_witness :
    0 < (((plRate rKern (defaultModel rKern) [[⟨25, 25 / 3⟩], [⟨30, 2⟩]]
        none none none none).getD 0 []).getD 0 ⟨0, 0⟩).sigma ∧
      (defaultModel rKern).kappa *
          (((([[⟨25, 25 / 3⟩], [⟨30, 2⟩]] :
            List (List (Rating ℝ))).getD 0 []).getD 0 ⟨0, 0⟩).sigma ^ 2 +
            tauEff (defaultModel rKern) none ^ 2) ≤
        (((plRate rKern (defaultModel rKern) [[⟨25, 25 / 3⟩], [⟨30, 2⟩]]
          none none none none).getD 0 []).getD 0 ⟨0, 0⟩).sigma ^ 2 :=
  c4_sigma_floor rKern (defaultModel rKern) [[⟨25, 25 / 3⟩], [⟨30, 2⟩]]
    none none none
    (fun x hx => Real.sq_sqrt hx)
    (fun x hx => Real.sqrt_pos.2 hx)
    (by norm_num [defaultModel])
    (fun h => absurd h (by decide))
    (by
      intro tm htm p hp
      rcases List.mem_cons.1 htm with h | h
      · subst h
        rcases List.mem_cons.1 hp with h2 | h2
        · subst h2
          show (0 : ℝ) < 25 / 3
          norm_num
        · simp at h2
      · rcases List.mem_cons.1 h with h3 | h3
        · subst h3
          rcases List.mem_cons.1 hp with h2 | h2
          · subst h2
            show (0 : ℝ) < 2
            norm_num
          · simp at h2
        · simp at h3)
    0 0 (by decide) (by decide)

end OpenSkill

namespace OpenSkill

/-- Counterexample for C4: with the per-call `limit_sigma` clamp
active, a player whose input sigma is tiny (`1/2000`) gets an output
sigma clamped back to at most `1/2000`, whose square falls strictly
below the claimed floor `kappa * (sigma_input^2 + tau^2)`. -/
theorem c4_sigma_floor_counterexample :
    (((plRate rKern (defaultModel rKern) [[⟨25, 1 / 2000⟩], [⟨30, 1 / 2000⟩]]
        none none none (some true)).getD 0 []).getD 0 ⟨0, 0⟩).sigma ^ 2 <
      (defaultModel rKern).kappa *
        (((1 : ℝ) / 2000) ^ 2 + tauEff (defaultModel rKern) none ^ 2) := by
  have hlen : pyTruthy (effRanks (none : Option (List ℝ)) none) = true →
      ((effRanks (none : Option (List ℝ)) none).getD []).length =
        ([[⟨25, 1 / 2000⟩], [⟨30, 1 / 2000⟩]] :
          List (List (Rating ℝ))).length :=
    fun h => absurd h (by decide)
  have hq := plRate_sigma_bounds rKern (defaultModel rKern)
    [[⟨25, 1 / 2000⟩], [⟨30, 1 / 2000⟩]] none none none
    (fun x hx => Real.sq_sqrt hx)
    (fun x hx => Real.sqrt_pos.2 hx)
    (by norm_num [defaultModel])
    hlen 0 0 (by decide) (by decide)
    (by show (0 : ℝ) < 1 / 2000; norm_num)
  rw [plRate_limit_entry rKern (defaultModel rKern)
    [[⟨25, 1 / 2000⟩], [⟨30, 1 / 2000⟩]] none none none hlen 0 0
    (by decide) (by decide)]
  have horig : ((([[⟨25, 1 / 2000⟩], [⟨30, 1 / 2000⟩]] :
      List (List (Rating ℝ))).getD 0 []).getD 0 ⟨0, 0⟩).sigma =
      (1 : ℝ) / 2000 := rfl
  set q := (((plRate rKern (defaultModel rKern)
    [[⟨25, 1 / 2000⟩], [⟨30, 1 / 2000⟩]]
    none none none none).getD 0 []).getD 0 ⟨0, 0⟩).sigma with hqdef
  have hout : (if q ≤ (1 : ℝ) / 2000 then q else (1 : ℝ) / 2000) ≤ 1 / 2000 := by
    split_ifs with h
    · exact h
    · exact le_refl _
  have houtpos : 0 < (if q ≤ (1 : ℝ) / 2000 then q else (1 : ℝ) / 2000) := by
    split_ifs with h
    · exact hq.1
    · norm_num
  show (if q ≤ ((([[⟨25, 1 / 2000⟩], [⟨30, 1 / 2000⟩]] :
      List (List (Rating ℝ))).getD 0 []).getD 0 ⟨0, 0⟩).sigma then q
    else ((([[⟨25, 1 / 2000⟩], [⟨30, 1 / 2000⟩]] :
      List (List (Rating ℝ))).getD 0 []).getD 0 ⟨0, 0⟩).sigma) ^ 2 < _
  rw [horig]
  have hsq : (if q ≤ (1 : ℝ) / 2000 then q else (1 : ℝ) / 2000) ^ 2 ≤
      ((1 : ℝ) / 2000) ^ 2 :=
    pow_le_pow_left (le_of_lt houtpos) hout 2
  have hrhs : ((1 : ℝ) / 2000) ^ 2 <
      (defaultModel rKern).kappa *
        (((1 : ℝ) / 2000) ^ 2 + tauEff (defaultModel rKern) none ^ 2) := by
    show ((1 : ℝ) / 2000) ^ 2 <
      1 / 10000 * (((1 : ℝ) / 2000) ^ 2 + (25 / 300) ^ 2)
    norm_num
  linarith

end OpenSkill

namespace OpenSkill

variable {α : Type} [LinearOrderedField α]

/-- C6 (corrected): the sigma cap holds for the *per-call*
`limit_sigma` argument of `PlackettLuce.rate` (every output sigma is at
most the pre-tau input sigma), and for the fast single-game path when
the *model* flag is set (the batch engine passes `model.limit_sigma`
into the write-back).  The model-level flag alone does *not* make
`PlackettLuce.rate` clamp — see the counterexample. -/
theorem c6_limit_sigma_cap (K : Kern α) (M : Model α)
    (teams : List (List (Rating α))) (ranks scores : Option (List α))
    (tauArg : Option α)
    (hlen : pyTruthy (effRanks ranks scores) = true →
      ((effRanks ranks scores).getD []).length = teams.length)
    (i j : ℕ) (hi : i < teams.length) (hj : j < (teams.getD i []).length)
    (C : Compute α) (tauSquared : α) (g : Game α) (st : St α) (e : String) :
    (((plRate K M teams ranks scores tauArg (some true)).getD i []).getD j
        ⟨0, 0⟩).sigma ≤ ((teams.getD i []).getD j ⟨0, 0⟩).sigma ∧
    (rateGameFast K C tauSquared true g st e).sigma ≤ (st e).sigma := by
  constructor
  · rw [plRate_limit_entry K M teams ranks scores tauArg hlen i j hi hj]
    show (if (((plRate K M teams ranks scores tauArg none).getD i []).getD j
        ⟨0, 0⟩).sigma ≤ ((teams.getD i []).getD j ⟨0, 0⟩).sigma
      then (((plRate K M teams ranks scores tauArg none).getD i []).getD j
        ⟨0, 0⟩).sigma
      else ((teams.getD i []).getD j ⟨0, 0⟩).sigma) ≤
        ((teams.getD i []).getD j ⟨0, 0⟩).sigma
    split_ifs with h
    · exact h
    · exact le_refl _
  · exact rateGameFast_sigma_le K C tauSquared g st e

/-- Witness for C6 at a concrete call over ℚ. -/
theorem c6_limit_sigma_cap_witness :
    (((plRate dKern (defaultModel dKern) [[⟨25, 3⟩], [⟨28, 4⟩]]
        none none none (some true)).getD 0 []).getD 0 ⟨0, 0⟩).sigma ≤
      ((([[⟨25, 3⟩], [⟨28, 4⟩]] : List (List (Rating ℚ))).getD 0 []).getD 0
        ⟨0, 0⟩).sigma ∧
    (rateGameFast dKern (fun ts _ _ _ => ts) 0 true
        ⟨[["a"]], none, none, none⟩ (fun _ => ⟨25, 3⟩) "a").sigma ≤
      ((fun _ => (⟨25, 3⟩ : Rating ℚ)) "a").sigma :=
  c6_limit_sigma_cap dKern (defaultModel dKern) [[⟨25, 3⟩], [⟨28, 4⟩]]
    none none none (fun h => absurd h (by decide)) 0 0 (by decide) (by decide)
    (fun ts _ _ _ => ts) 0 ⟨[["a"]], none, none, none⟩ (fun _ => ⟨25, 3⟩) "a"

/-- Counterexample for C6: with `limit_sigma=True` set on the model but
no per-call override, `PlackettLuce.rate` does not clamp — a player
with tiny input sigma `1/2000` comes back with sigma `1`
(the kernel stand-in square root), strictly larger. -/
theorem c6_limit_sigma_cap_counterexample :
    (defaultModelLS dKern).limitSigma = true ∧
    ((([[⟨25, 1 / 2000⟩], [⟨25, 1 / 2000⟩]] :
        List (List (Rating ℚ))).getD 0 []).getD 0 ⟨0, 0⟩).sigma <
      (((plRate dKern (defaultModelLS dKern)
          [[⟨25, 1 / 2000⟩], [⟨25, 1 / 2000⟩]]
          none none none none).getD 0 []).getD 0 ⟨0, 0⟩).sigma := by
  refine ⟨rfl, ?_⟩
  obtain ⟨ω, δ, S, h⟩ := plRate_entry dKern (defaultModelLS dKern)
    [[⟨25, 1 / 2000⟩], [⟨25, 1 / 2000⟩]] none none none
    (fun hx => absurd hx (by decide)) 0 0 (by decide) (by decide)
  rw [h]
  show (1 : ℚ) / 2000 < 1 * 1
  norm_num

end OpenSkill

namespace OpenSkill

variable {α : Type} [LinearOrderedField α]

/-- C1 (corrected): `rate` hands back the *caller's own* Rating objects
— the returned team lists hold exactly the input object ids (as a
permutation of rows restoring the original order) — and it writes
`mu`/`sigma` of those objects in place; only objects not passed in are
left untouched. -/
theorem c1_rate_object_identity (K : Kern α) (M : Model α)
    (teams : List (List ℕ)) (h0 : Heap α)
    (ranks scores : Option (List α)) (tauArg : Option α)
    (lsArg : Option Bool)
    (hlen : pyTruthy (effRanks ranks scores) = true →
      ((effRanks ranks scores).getD []).length = teams.length) :
    (plRateHeap K M teams h0 ranks scores tauArg lsArg).1.flatten.Perm
      teams.flatten ∧
    ∀ id, id ∉ teams.flatten →
      (plRateHeap K M teams h0 ranks scores tauArg lsArg).2 id = h0 id :=
  ⟨plRateHeap_ids K M teams h0 ranks scores tauArg lsArg hlen,
   fun id hid =>
     plRateHeap_frame K M teams h0 ranks scores tauArg lsArg hlen id hid⟩

/-- Witness for C1 at a concrete two-object call over ℚ. -/
theorem c1_rate_object_identity_witness :
    (plRateHeap dKern (defaultModel dKern) [[0], [1]]
        (fun _ => ⟨25, 25 / 3⟩) none none none none).1.flatten.Perm
      ([[0], [1]] : List (List ℕ)).flatten ∧
    ∀ id, id ∉ ([[0], [1]] : List (List ℕ)).flatten →
      (plRateHeap dKern (defaultModel dKern) [[0], [1]]
        (fun _ => ⟨25, 25 / 3⟩) none none none none).2 id =
        (fun _ => (⟨25, 25 / 3⟩ : Rating ℚ)) id :=
  c1_rate_object_identity dKern (defaultModel dKern) [[0], [1]]
    (fun _ => ⟨25, 25 / 3⟩) none none none none
    (fun h => absurd h (by decide))

end OpenSkill

namespace OpenSkill

/-- Counterexample for C1: on a concrete two-player game the returned
structure holds the very objects passed in (ids `0` and `1`, not fresh
ones), and the caller's object `0` has had its sigma overwritten
(`25/3` before the call, `1` after under the kernel stand-in). -/
theorem c1_rate_object_identity_counterexample :
    (plRateHeap dKern (defaultModel dKern) [[0], [1]]
        (fun _ => ⟨25, 25 / 3⟩) none none none none).1 = [[0], [1]] ∧
    ((plRateHeap dKern (defaultModel dKern) [[0], [1]]
        (fun _ => ⟨25, 25 / 3⟩) none none none none).2 0).sigma ≠ 25 / 3 := by
  constructor
  · rfl
  · simp only [plRateHeap, plCompute, calcTeamRatings, calcRankings,
      teamScores, rankScan, sumQList, aList, cFun, tauEff, effRanks,
      pyTruthy, writeHeap, dKern, defaultModel, defaultGamma,
      List.foldl, List.enum, List.enumFrom, List.map, List.flatten,
      List.zip, List.zipWith, List.range, List.getD, List.headD,
      List.isEmpty, List.sum_cons, List.sum_nil, List.length,
      List.getElem?_cons_zero, List.getElem?_cons_succ, List.getElem?_nil,
      Option.getD, Option.isSome, Option.map, reduceIte, reduceCtorEq]
    norm_num [rankScan]

end OpenSkill

namespace OpenSkill

variable {α : Type} [LinearOrderedField α]

lemma reflectedBottomRanks_getD (rp : List α) (i : ℕ) (hi : i < rp.length) :
    (reflectedBottomRanks rp).getD i 0 =
      (rp.map (fun p => 1 + (rp.filter (fun q => q < p)).length)).foldl
          max 0 -
        (1 + (rp.filter (fun q => q < rp[i])).length) + 1 := by
  have hlen : i < (reflectedBottomRanks rp).length := by
    rw [reflectedBottomRanks_length]
    exact hi
  rw [List.getD_eq_getElem _ _ hlen]
  simp only [reflectedBottomRanks]
  rw [List.getElem_map, List.getElem_map]

lemma reflectedBottomRanks_tie (rp : List α) (i j : ℕ)
    (hi : i < rp.length) (hj : j < rp.length) (h : rp[i] = rp[j]) :
    (reflectedBottomRanks rp).getD i 0 = (reflectedBottomRanks rp).getD j 0 := by
  rw [reflectedBottomRanks_getD rp i hi, reflectedBottomRanks_getD rp j hj, h]

lemma reflectedBottomRanks_strict (rp : List α) (i j : ℕ)
    (hi : i < rp.length) (hj : j < rp.length) (h : rp[i] < rp[j]) :
    (reflectedBottomRanks rp).getD j 0 < (reflectedBottomRanks rp).getD i 0 := by
  rw [reflectedBottomRanks_getD rp i hi, reflectedBottomRanks_getD rp j hj]
  have hcnt := cnt_lt_strict rp rp[i] rp[j] (List.getElem_mem hi) h
  have hmem : 1 + (rp.filter (fun q => q < rp[j])).length ∈
      rp.map (fun p => 1 + (rp.filter (fun q => q < p)).length) :=
    List.mem_map.2 ⟨rp[j], List.getElem_mem hj, rfl⟩
  have hle := mem_le_foldl_max _ 0 _ hmem
  omega

/-- C9 (corrected): `predict_rank` returns the per-team probabilities
zipped with ranks obtained by *reflecting* the bottom-up competition
ranks (`1 + number of strictly smaller probabilities`) through their
maximum.  These ranks do share a value on tied probabilities and are
strictly smaller for strictly larger probabilities, but the rank
following a tie is *not* offset by the tie count: a leader followed by
a tied pair comes out `(1, 3, 3)` rather than the competition ranking
`(1, 2, 2)`, and two tied leaders come out `(1, 1, 2)` rather than
`(1, 1, 3)`.  The length matches the team count for two or more
teams. -/
theorem c9_predict_rank_corrected (K : Kern α) (M : Model α)
    (teams : List (List (Rating α))) :
    predictRank K M teams =
      (reflectedBottomRanks ((predictRank K M teams).map Prod.snd)).zip
        ((predictRank K M teams).map Prod.snd) ∧
    (∀ i j, i < (predictRank K M teams).length →
      j < (predictRank K M teams).length →
      ((predictRank K M teams).map Prod.snd).getD i 0 =
        ((predictRank K M teams).map Prod.snd).getD j 0 →
      ((predictRank K M teams).map Prod.fst).getD i 0 =
        ((predictRank K M teams).map Prod.fst).getD j 0) ∧
    (∀ i j, i < (predictRank K M teams).length →
      j < (predictRank K M teams).length →
      ((predictRank K M teams).map Prod.snd).getD i 0 <
        ((predictRank K M teams).map Prod.snd).getD j 0 →
      ((predictRank K M teams).map Prod.fst).getD j 0 <
        ((predictRank K M teams).map Prod.fst).getD i 0) ∧
    (2 ≤ teams.length → (predictRank K M teams).length = teams.length) := by
  refine ⟨?_, ?_, ?_, ?_⟩
  · rw [predictRank_map_snd]
    exact predictRank_eq_zip K M teams
  · intro i j hi hj hpe
    rw [predictRank_length] at hi hj
    rw [predictRank_map_snd, List.getD_eq_getElem _ _ hi,
      List.getD_eq_getElem _ _ hj] at hpe
    rw [predictRank_map_fst]
    exact reflectedBottomRanks_tie _ i j hi hj hpe
  · intro i j hi hj hpl
    rw [predictRank_length] at hi hj
    rw [predictRank_map_snd, List.getD_eq_getElem _ _ hi,
      List.getD_eq_getElem _ _ hj] at hpl
    rw [predictRank_map_fst]
    exact reflectedBottomRanks_strict _ i j hi hj hpl
  · intro hn
    rw [predictRank_length, predictRankProbs_length K M teams hn]

end OpenSkill

namespace OpenSkill

/-- Counterexample for C9: the kernel stand-in CDF is monotone and
reflective, yet on three teams with two ties the ranks `predict_rank`
returns are `(1, 1, 2)`-patterned, not the claimed competition ranking
with the post-tie offset (`1 + number of strictly larger
probabilities`). -/
theorem c9_predict_rank_counterexample :
    (∀ x y : ℚ, dKern.phiMajor x ≤ dKern.phiMajor (x + |y|)) ∧
    (∀ x : ℚ, dKern.phiMajor x + dKern.phiMajor (-x) = 1) ∧
    ¬ CompetitionRanks
        ((predictRank dKern (defaultModel dKern)
          [[⟨1, 1⟩], [⟨1, 1⟩], [⟨10, 1⟩]]).map Prod.fst)
        ((predictRank dKern (defaultModel dKern)
          [[⟨1, 1⟩], [⟨1, 1⟩], [⟨10, 1⟩]]).map Prod.snd) := by
  have hp : predictRankProbs dKern (defaultModel dKern)
      [[⟨1, 1⟩], [⟨1, 1⟩], [⟨10, 1⟩]] =
      [122 / 27, 122 / 27, 121 / 27] := by
    simp only [predictRankProbs, pairIdx, headRating, dKern, defaultModel,
      chunksOf, List.flatMap, List.range, List.map, List.filter,
      List.flatten, List.sum_cons, List.sum_nil, List.length, List.getD,
      List.headD, List.take, List.drop]
    norm_num
  have hrb : reflectedBottomRanks
      ([122 / 27, 122 / 27, 121 / 27] : List ℚ) = [1, 1, 2] := by
    simp only [reflectedBottomRanks, List.map, List.filter, List.length,
      List.foldl]
    norm_num
  have hout : predictRank dKern (defaultModel dKern)
      [[⟨1, 1⟩], [⟨1, 1⟩], [⟨10, 1⟩]] =
      [(1, 122 / 27), (1, 122 / 27), (2, 121 / 27)] := by
    rw [predictRank_eq_zip, hp, hrb]
    rfl
  refine ⟨?_, ?_, ?_⟩
  · intro x y
    show x + 1 / 2 ≤ x + |y| + 1 / 2
    have := abs_nonneg y
    linarith
  · intro x
    show x + 1 / 2 + (-x + 1 / 2) = 1
    ring
  · rw [hout]
    rintro ⟨hl, hv⟩
    have h2 := hv 2 (by norm_num [List.length, List.map])
    simp only [List.map, List.getD, List.getElem?_cons_succ,
      List.getElem?_cons_zero, Option.getD, List.filter] at h2
    norm_num at h2

end OpenSkill
